import Mathlib

/-!
Verification development for the Cincinnati installation-versions discovery
client.  The definitions below are a shallow embedding of the Go sources:

* the client revision in `cincinnaticlient` (file `part_004` of the sources,
  together with its aggregation helper `cincinnati-client/utils.go` and the
  tests in `part_003`): `Graph`, `Node`, `Release`, `SortAvailableUpgrades`,
  `splitChannel`, `extractSemVersionFromChannel`, `isValidVersion`,
  `createRelease`, `discoverNewChannels`, `processEdges`,
  `processConditionalEdges`, `DiscoverReleases` and
  `AggregateReleasesByChannelGroupAndSortAvailableUpgrades`;
* the sibling revision `cincinnati-client/cincinnati_client.go`, whose
  `processEdges` re-checks the minimum version on both edge endpoints, is
  embedded separately as `processEdgesMinCheck`.

Go maps are modelled as association lists (`lookupA` / `insertA`), Go string
manipulation (`strings.Split`, `strings.TrimSpace`, `strings.HasPrefix`,
`strings.Index`) by the character-list helpers below, and the external
semantic-version library (`github.com/hashicorp/go-version`, treated by the
specification as an external capability) by `Version`: a non-empty list of
numeric segments, parsed from dotted decimal strings, padded to at least
three segments, compared segment-wise with missing segments read as zero,
and printed as the dotted join of all segments.

The HTTP transport is modelled by a finite response table mapping a channel
name to either a parsed `Graph` or a fetch error (non-success status,
transport failure or JSON parse failure), exactly the shape the test
round-tripper in the sources uses.  A `nil` pointer dereference in the Go
code (which crashes the process rather than returning an error) is modelled
by an `Option` layer whose `none` value means "panicked".
-/

namespace Cincinnati

/-! ### Characters and decimal numerals -/

/-- Is `c` one of the ASCII digits `0`..`9`? -/
def isDigitChar (c : Char) : Bool := 48 ≤ c.toNat && c.toNat ≤ 57

/-- Numeric value of an ASCII digit. -/
def digitVal (c : Char) : Nat := c.toNat - 48

/-- Decimal reading of a character list, as `strconv`/the version library do
for a purely numeric segment: defined exactly on non-empty all-digit lists. -/
def charsToNat? (cs : List Char) : Option Nat :=
  if cs.isEmpty then none
  else if cs.all isDigitChar then
    some (cs.foldl (fun acc c => acc * 10 + digitVal c) 0)
  else none

/-- Fuel-driven decimal printing helper (most significant digit first). -/
def natToCharsAux : Nat → Nat → List Char → List Char
  | 0, _, acc => acc
  | fuel + 1, n, acc =>
    if n < 10 then Char.ofNat (48 + n) :: acc
    else natToCharsAux fuel (n / 10) (Char.ofNat (48 + n % 10) :: acc)

/-- Decimal printing of a natural number, as `strconv.FormatInt` does. -/
def natToChars (n : Nat) : List Char := natToCharsAux (n + 1) n []

theorem natToCharsAux_acc (fuel : Nat) : ∀ (n : Nat) (acc : List Char),
    natToCharsAux fuel n acc = natToCharsAux fuel n [] ++ acc := by
  induction fuel with
  | zero => intro n acc; simp [natToCharsAux]
  | succ fuel ih =>
    intro n acc
    by_cases h : n < 10
    · simp [natToCharsAux, h]
    · simp only [natToCharsAux, if_neg h]
      rw [ih (n / 10) (Char.ofNat (48 + n % 10) :: acc),
        ih (n / 10) [Char.ofNat (48 + n % 10)]]
      simp

theorem natToCharsAux_fuel (n : Nat) : ∀ (fuel : Nat), n < fuel →
    natToCharsAux fuel n [] = natToChars n := by
  induction n using Nat.strong_induction_on with
  | _ n ih =>
    intro fuel hfuel
    match fuel, hfuel with
    | fuel + 1, hfuel =>
      by_cases h : n < 10
      · simp [natToCharsAux, natToChars, h]
      · have hdiv : n / 10 < n := Nat.div_lt_self (by omega) (by omega)
        simp only [natToCharsAux, if_neg h, natToChars]
        rw [natToCharsAux_acc fuel, natToCharsAux_acc n,
          ih (n / 10) hdiv fuel (by omega), ih (n / 10) hdiv n (by omega)]

theorem natToChars_step (n : Nat) (h : ¬ n < 10) :
    natToChars n = natToChars (n / 10) ++ [Char.ofNat (48 + n % 10)] := by
  have hdiv : n / 10 < n := Nat.div_lt_self (by omega) (by omega)
  simp only [natToChars, natToCharsAux, if_neg h]
  rw [natToCharsAux_acc, natToCharsAux_fuel (n / 10) n (by omega)]
  rfl

theorem digit_facts (r : Nat) (h : r < 10) :
    isDigitChar (Char.ofNat (48 + r)) = true ∧ digitVal (Char.ofNat (48 + r)) = r := by
  interval_cases r <;> exact ⟨by decide, by decide⟩

theorem natToChars_all_digit (n : Nat) : ∀ c ∈ natToChars n, isDigitChar c = true := by
  induction n using Nat.strong_induction_on with
  | _ n ih =>
    by_cases h : n < 10
    · intro c hc
      have : natToChars n = [Char.ofNat (48 + n)] := by simp [natToChars, natToCharsAux, h]
      rw [this] at hc
      simp at hc
      subst hc
      exact (digit_facts n h).1
    · intro c hc
      rw [natToChars_step n h] at hc
      rcases List.mem_append.mp hc with hc | hc
      · exact ih (n / 10) (Nat.div_lt_self (by omega) (by omega)) c hc
      · simp at hc
        subst hc
        exact (digit_facts (n % 10) (Nat.mod_lt _ (by omega))).1

theorem natToChars_ne_nil (n : Nat) : natToChars n ≠ [] := by
  by_cases h : n < 10
  · simp [natToChars, natToCharsAux, h]
  · rw [natToChars_step n h]; simp

theorem natToChars_val (n : Nat) :
    (natToChars n).foldl (fun acc c => acc * 10 + digitVal c) 0 = n := by
  induction n using Nat.strong_induction_on with
  | _ n ih =>
    by_cases h : n < 10
    · have : natToChars n = [Char.ofNat (48 + n)] := by simp [natToChars, natToCharsAux, h]
      rw [this]
      simp [(digit_facts n h).2]
    · rw [natToChars_step n h, List.foldl_append]
      rw [ih (n / 10) (Nat.div_lt_self (by omega) (by omega))]
      simp [(digit_facts (n % 10) (Nat.mod_lt _ (by omega))).2]
      omega

theorem charsToNat?_natToChars (n : Nat) : charsToNat? (natToChars n) = some n := by
  have h1 := natToChars_all_digit n
  have h2 := natToChars_ne_nil n
  have h3 := natToChars_val n
  simp only [charsToNat?]
  rw [if_neg (by simpa [List.isEmpty_iff] using h2), if_pos (by simpa [List.all_eq_true] using h1)]
  rw [h3]

theorem natToChars_no_dot (n : Nat) : ∀ c ∈ natToChars n, c ≠ '.' := by
  intro c hc heq
  have := natToChars_all_digit n c hc
  rw [heq] at this
  simp [isDigitChar] at this

/-! ### Character-list string operations (`strings.Split`, `TrimSpace`, ...) -/

/-- Helper for `splitOnChar`; `cur` is the current chunk, reversed. -/
def splitOnCharAux (sep : Char) : List Char → List Char → List (List Char)
  | [], cur => [cur.reverse]
  | c :: rest, cur =>
    if c = sep then cur.reverse :: splitOnCharAux sep rest []
    else splitOnCharAux sep rest (c :: cur)

/-- `strings.Split` on a single-character separator. -/
def splitOnChar (sep : Char) (cs : List Char) : List (List Char) :=
  splitOnCharAux sep cs []

theorem splitOnCharAux_sep_free (sep : Char) (p : List Char) (hp : ∀ c ∈ p, c ≠ sep) :
    ∀ cur, splitOnCharAux sep p cur = [cur.reverse ++ p] := by
  induction p with
  | nil => intro cur; simp [splitOnCharAux]
  | cons c p ih =>
    intro cur
    have hc : c ≠ sep := hp c (by simp)
    simp only [splitOnCharAux, if_neg hc]
    rw [ih (fun x hx => hp x (by simp [hx])) (c :: cur)]
    simp

theorem splitOnCharAux_chunk (sep : Char) (p : List Char) (hp : ∀ c ∈ p, c ≠ sep) :
    ∀ (rest cur : List Char),
      splitOnCharAux sep (p ++ sep :: rest) cur =
        (cur.reverse ++ p) :: splitOnCharAux sep rest [] := by
  induction p with
  | nil => intro rest cur; simp [splitOnCharAux]
  | cons c p ih =>
    intro rest cur
    have hc : c ≠ sep := hp c (by simp)
    have hstep : splitOnCharAux sep ((c :: p) ++ sep :: rest) cur
        = splitOnCharAux sep (p ++ sep :: rest) (c :: cur) := by
      simp [splitOnCharAux, hc]
    rw [hstep, ih (fun x hx => hp x (by simp [hx])) rest (c :: cur)]
    simp

/-- Join chunks with a separator character (inverse of `splitOnChar`). -/
def intercalateChar (sep : Char) : List (List Char) → List Char
  | [] => []
  | [p] => p
  | p :: ps => p ++ sep :: intercalateChar sep ps

theorem splitOnChar_intercalateChar (sep : Char) :
    ∀ (parts : List (List Char)), parts ≠ [] →
      (∀ p ∈ parts, ∀ c ∈ p, c ≠ sep) →
      splitOnChar sep (intercalateChar sep parts) = parts := by
  intro parts
  induction parts with
  | nil => intro h; exact absurd rfl h
  | cons p ps ih =>
    intro _ hfree
    match ps, ih with
    | [], _ =>
      simp only [intercalateChar, splitOnChar]
      rw [splitOnCharAux_sep_free sep p (hfree p (by simp)) []]
      simp
    | q :: ps, ih =>
      simp only [intercalateChar, splitOnChar]
      rw [splitOnCharAux_chunk sep p (hfree p (by simp)) _ []]
      simp only [List.reverse_nil, List.nil_append]
      have := ih (by simp) (fun r hr => hfree r (by simp at hr ⊢; tauto))
      simpa [splitOnChar] using this

/-- Is `c` a white-space character (`unicode.IsSpace` on the ASCII range)? -/
def isSpaceChar (c : Char) : Bool := c = ' ' || c = '\t' || c = '\n' || c = '\r'

/-- `strings.TrimSpace` on a character list. -/
def trimChars (cs : List Char) : List Char :=
  ((cs.dropWhile isSpaceChar).reverse.dropWhile isSpaceChar).reverse

/-- `strings.TrimSpace`. -/
def trimSpace (s : String) : String := ⟨trimChars s.data⟩

/-- `strings.HasPrefix` on character lists. -/
def startsWithChars : List Char → List Char → Bool
  | [], _ => true
  | _ :: _, [] => false
  | p :: ps, c :: cs => p = c && startsWithChars ps cs

/-- `strings.HasPrefix`. -/
def startsWith (pfx s : String) : Bool := startsWithChars pfx.data s.data

/-! ### Association lists standing in for Go maps -/

/-- Lookup in an association list (`m[k]` with `ok` flag). -/
def lookupA {α : Type} : List (String × α) → String → Option α
  | [], _ => none
  | (k, v) :: rest, key => if k = key then some v else lookupA rest key

/-- Insert-or-overwrite in an association list (`m[k] = v`). -/
def insertA {α : Type} : List (String × α) → String → α → List (String × α)
  | [], key, v => [(key, v)]
  | (k, w) :: rest, key, v =>
    if k = key then (key, v) :: rest else (k, w) :: insertA rest key v

theorem lookupA_mem {α : Type} {m : List (String × α)} {k : String} {v : α}
    (h : lookupA m k = some v) : (k, v) ∈ m := by
  induction m with
  | nil => simp [lookupA] at h
  | cons p rest ih =>
    obtain ⟨k', v'⟩ := p
    by_cases hk : k' = k
    · subst hk
      simp [lookupA] at h
      simp [h]
    · simp [lookupA, hk] at h
      exact List.mem_cons_of_mem _ (ih h)

theorem lookupA_insertA_self {α : Type} (m : List (String × α)) (k : String) (v : α) :
    lookupA (insertA m k v) k = some v := by
  induction m with
  | nil => simp [insertA, lookupA]
  | cons p rest ih =>
    obtain ⟨k', v'⟩ := p
    by_cases hk : k' = k
    · subst hk; simp [insertA, lookupA]
    · simp [insertA, lookupA, hk, ih]

theorem lookupA_insertA_ne {α : Type} (m : List (String × α)) (k k' : String) (v : α)
    (h : k' ≠ k) : lookupA (insertA m k v) k' = lookupA m k' := by
  induction m with
  | nil =>
    simp only [insertA, lookupA]
    rw [if_neg (Ne.symm h)]
  | cons p rest ih =>
    obtain ⟨k'', v''⟩ := p
    by_cases hk : k'' = k
    · subst hk
      simp only [insertA, if_pos rfl, lookupA]
      rw [if_neg (Ne.symm h), if_neg (Ne.symm h)]
    · simp only [insertA, if_neg hk, lookupA]
      by_cases hk2 : k'' = k'
      · rw [if_pos hk2, if_pos hk2]
      · rw [if_neg hk2, if_neg hk2, ih]

theorem mem_insertA {α : Type} {m : List (String × α)} {k k' : String} {v v' : α}
    (h : (k', v') ∈ insertA m k v) : (k', v') ∈ m ∨ (k' = k ∧ v' = v) := by
  induction m with
  | nil => simp [insertA] at h; simp [h]
  | cons p rest ih =>
    obtain ⟨k'', v''⟩ := p
    by_cases hk : k'' = k
    · subst hk
      simp [insertA] at h
      rcases h with ⟨h1, h2⟩ | h
      · exact Or.inr ⟨h1, h2⟩
      · exact Or.inl (List.mem_cons_of_mem _ h)
    · simp only [insertA, if_neg hk] at h
      rcases List.mem_cons.mp h with h | h
      · exact Or.inl (by simp [h])
      · rcases ih h with h | h
        · exact Or.inl (List.mem_cons_of_mem _ h)
        · exact Or.inr h

/-! ### Semantic versions (the external `go-version` capability) -/

/-- A parsed semantic version: a non-empty list of numeric segments
(`seg0 :: segRest`).  The version library guarantees at least one segment and
pads parsed versions to at least three. -/
structure Version where
  seg0 : Nat
  segRest : List Nat
deriving DecidableEq, Repr

/-- All segments of a version. -/
def Version.segments (v : Version) : List Nat := v.seg0 :: v.segRest

/-- Segment-wise comparison; a missing segment is read as zero, as the
version library's padding does. -/
def cmpSegs : List Nat → List Nat → Ordering
  | [], b => if b.all (fun x => x == 0) then .eq else .lt
  | a :: as, [] => if a = 0 then cmpSegs as [] else .gt
  | a :: as, b :: bs =>
    if a < b then .lt else if b < a then .gt else cmpSegs as bs

/-- `Version.Compare`. -/
def verCompare (v w : Version) : Ordering := cmpSegs v.segments w.segments

/-- Parse every chunk of a dotted decimal string as a numeric segment. -/
def parseSegsList : List (List Char) → Option (List Nat)
  | [] => some []
  | c :: cs =>
    match charsToNat? c, parseSegsList cs with
    | some n, some ns => some (n :: ns)
    | _, _ => none

/-- `version.NewVersion`: split on dots, read each chunk as a decimal
number, and pad the result to at least three segments. -/
def parseVersion (s : String) : Option Version :=
  match parseSegsList (splitOnChar '.' s.data) with
  | none => none
  | some [] => none
  | some (x :: xs) => some ⟨x, xs ++ List.replicate (2 - xs.length) 0⟩

/-- `Version.String`: the dotted join of all segments. -/
def versionToString (v : Version) : String :=
  ⟨intercalateChar '.' (v.segments.map natToChars)⟩

theorem cmpSegs_replicate_zero_left (k : Nat) : ∀ (b : List Nat),
    cmpSegs (List.replicate k 0) b = cmpSegs [] b := by
  induction k with
  | zero => intro b; rfl
  | succ k ih =>
    intro b
    match b with
    | [] =>
      simp only [List.replicate, cmpSegs, if_pos rfl]
      have := ih []
      simpa [cmpSegs] using this
    | x :: xs =>
      simp only [List.replicate, cmpSegs]
      by_cases hx : x = 0
      · subst hx
        simpa [cmpSegs] using ih xs
      · have h1 : ¬ (0 : Nat) < 0 := by omega
        have h2 : 0 < x := by omega
        simp [cmpSegs, hx, h2]

theorem cmpSegs_append_replicate_zero (k : Nat) :
    ∀ (a b : List Nat), cmpSegs (a ++ List.replicate k 0) b = cmpSegs a b := by
  intro a
  induction a with
  | nil =>
    intro b
    simpa using cmpSegs_replicate_zero_left k b
  | cons h t ih =>
    intro b
    match b with
    | [] => simp only [List.cons_append, cmpSegs, List.append_eq, ih]
    | x :: xs => simp only [List.cons_append, cmpSegs, List.append_eq, ih]

theorem cmpSegs_swap : ∀ (a b : List Nat), cmpSegs b a = (cmpSegs a b).swap := by
  intro a
  induction a with
  | nil =>
    intro b
    induction b with
    | nil => decide
    | cons x xs ihb =>
      by_cases hx : x = 0
      · subst hx
        simpa [cmpSegs] using ihb
      · simp [cmpSegs, hx, Ordering.swap]
  | cons h t ih =>
    intro b
    match b with
    | [] =>
      by_cases hh : h = 0
      · subst hh
        simpa [cmpSegs] using ih []
      · simp [cmpSegs, hh, Ordering.swap]
    | x :: xs =>
      simp only [cmpSegs]
      rcases Nat.lt_trichotomy h x with hlt | heq | hgt
      · simp [hlt, Nat.lt_asymm hlt, Ordering.swap, Nat.ne_of_lt hlt]
      · subst heq
        simp [Nat.lt_irrefl, ih xs]
      · simp [hgt, Nat.lt_asymm hgt, Ordering.swap, Nat.ne_of_lt hgt]

theorem parseSegsList_map_natToChars : ∀ (segs : List Nat),
    parseSegsList (segs.map natToChars) = some segs := by
  intro segs
  induction segs with
  | nil => rfl
  | cons s rest ih =>
    simp only [List.map, parseSegsList, charsToNat?_natToChars, ih]

/-- Printing a version and re-parsing it yields the version padded to at
least three segments. -/
theorem parseVersion_versionToString (v : Version) :
    parseVersion (versionToString v) =
      some ⟨v.seg0, v.segRest ++ List.replicate (2 - v.segRest.length) 0⟩ := by
  have hsplit : splitOnChar '.' (intercalateChar '.' (v.segments.map natToChars))
      = v.segments.map natToChars := by
    apply splitOnChar_intercalateChar
    · simp [Version.segments]
    · intro p hp c hc
      rcases List.mem_map.mp hp with ⟨n, _, rfl⟩
      exact natToChars_no_dot n c hc
  simp only [parseVersion, versionToString]
  rw [hsplit, parseSegsList_map_natToChars]
  simp [Version.segments]

/-- Re-parsing a printed version never changes how it compares. -/
theorem verCompare_parse_print (v w : Version) :
    ∃ u, parseVersion (versionToString v) = some u ∧ verCompare u w = verCompare v w := by
  refine ⟨_, parseVersion_versionToString v, ?_⟩
  simp only [verCompare, Version.segments]
  have := cmpSegs_append_replicate_zero (2 - v.segRest.length)
    (v.seg0 :: v.segRest) w.segments
  simpa [Version.segments] using this

/-! ### Data model (`Graph`, `Node`, `Release`, ...) -/

/-- One entry of a fetched graph: an optional parsed version (`nil` in Go
when the JSON field is absent or null), a payload identifier, and string
metadata. -/
structure Node where
  version : Option Version
  payload : String
  metadata : List (String × String)
deriving DecidableEq, Repr

/-- A named risk attached to a conditional edge group. -/
structure Risk where
  name : String
deriving DecidableEq, Repr

/-- One conditional upgrade edge, identified by version strings. -/
structure ConditionalEdge where
  fromVersion : String
  toVersion : String
deriving DecidableEq, Repr

/-- A group of conditional edges gated by a set of risks. -/
structure ConditionalEdges where
  edges : List ConditionalEdge
  risks : List Risk
deriving DecidableEq, Repr

/-- The response for one `(channel, arch)` query: nodes, unconditional
index-pair edges, and conditional edge groups. -/
structure Graph where
  nodes : List Node
  edges : List (List Int)
  conditionalEdges : List ConditionalEdges
deriving DecidableEq, Repr

/-- A discovered release; `availableUpgrades` is a Go slice whose zero value
is empty. -/
structure Release where
  version : String
  arch : String
  payload : String
  availableUpgrades : List String := []
deriving DecidableEq, Repr

/-- `VersionReleases`: version string → release. -/
abbrev VersionReleases := List (String × Release)

/-- `ReleasesByChannel`: channel name → version releases. -/
abbrev ReleasesByChannel := List (String × VersionReleases)

/-! ### Channel helpers -/

/-- `splitChannel`: split at the first hyphen into a prefix that keeps the
hyphen and the trailing version token; no hyphen is an error. -/
def splitChannel (channel : String) : Except String (String × String) :=
  match channel.data.findIdx? (fun c => c = '-') with
  | none => .error ("invalid channel format: " ++ channel)
  | some idx => .ok (⟨channel.data.take (idx + 1)⟩, ⟨channel.data.drop (idx + 1)⟩)

/-- `extractSemVersionFromChannel`: drop the prefix, trim white space, and
parse the remainder as a version. -/
def extractSemVersionFromChannel (channel pfx : String) : Option Version :=
  parseVersion (trimSpace ⟨channel.data.drop pfx.data.length⟩)

/-- `isValidVersion`: the version pointer is non-nil and compares
greater-than-or-equal to the minimum. -/
def isValidVersion (v : Option Version) (minVersion : Version) : Bool :=
  match v with
  | none => false
  | some v =>
    match verCompare v minVersion with
    | .lt => false
    | _ => true

/-- The well-known metadata key listing co-membership channels. -/
def channelsMetadataKey : String := "io.openshift.upgrades.graph.release.channels"

/-- `createRelease`: a node yields a release iff its version is present and
at least the minimum; the version key is the printed version. -/
def createRelease (node : Node) (arch : String) (minVersion : Version) : Option Release :=
  match node.version with
  | none => none
  | some v =>
    if isValidVersion (some v) minVersion then
      some { version := versionToString v, arch := arch, payload := node.payload }
    else none

/-- `discoverNewChannels`: split the channels metadata value on commas, trim
each entry, and keep those sharing the start prefix whose trailing version
parses and meets the minimum; entries that fail to parse are skipped. -/
def discoverNewChannels (node : Node) (startPfx : String) (minVersion : Version) : List String :=
  match lookupA node.metadata channelsMetadataKey with
  | none => []
  | some meta =>
    ((splitOnChar ',' meta.data).map (fun cs => trimSpace ⟨cs⟩)).filter
      (fun ch =>
        startsWith startPfx ch &&
          match extractSemVersionFromChannel ch startPfx with
          | none => false
          | some v => isValidVersion (some v) minVersion)

/-! ### Edge resolution -/

/-- Placeholder node; never observed because every index access is guarded
by the bounds check. -/
def defaultNode : Node := { version := none, payload := "", metadata := [] }

/-- `processEdges` of the `part_004` revision, one edge at a time.  The `Go`
code formats the offending edge and its index into the error strings; the
strings here are abbreviated.  Calling `String()` on a nil version pointer
is a panic, modelled as the outer `none`. -/
def processEdgesAux (nodes : List Node) :
    List (List Int) → VersionReleases → Option (Except String VersionReleases)
  | [], releases => some (.ok releases)
  | edge :: rest, releases =>
    match edge with
    | [] => some (.error "invalid edge format: expected 2 ints")
    | [_] => some (.error "invalid edge format: expected 2 ints")
    | fromIdx :: toIdx :: _ =>
      if fromIdx < 0 ∨ (nodes.length : Int) ≤ fromIdx ∨ toIdx < 0 ∨ (nodes.length : Int) ≤ toIdx then
        some (.error "invalid edge indices")
      else
        match (nodes.getD fromIdx.toNat defaultNode).version with
        | none => none
        | some fromVer =>
          match lookupA releases (versionToString fromVer) with
          | none => processEdgesAux nodes rest releases
          | some r =>
            match (nodes.getD toIdx.toNat defaultNode).version with
            | none => none
            | some toVer =>
              if r.availableUpgrades.contains (versionToString toVer) then
                processEdgesAux nodes rest releases
              else
                processEdgesAux nodes rest
                  (insertA releases (versionToString fromVer)
                    { r with availableUpgrades := r.availableUpgrades ++ [versionToString toVer] })

/-- `processEdges` (revision `part_004`). -/
def processEdges (graph : Graph) (releases : VersionReleases) :
    Option (Except String VersionReleases) :=
  processEdgesAux graph.nodes graph.edges releases

/-- `processEdges` of the `cincinnati-client/cincinnati_client.go` revision:
both endpoints are first checked with `isValidVersion` against the minimum
version, so absent versions are skipped rather than dereferenced. -/
def processEdgesMinCheckAux (nodes : List Node) (minVersion : Version) :
    List (List Int) → VersionReleases → Except String VersionReleases
  | [], releases => .ok releases
  | edge :: rest, releases =>
    match edge with
    | [] => .error "invalid edge format: expected 2 ints"
    | [_] => .error "invalid edge format: expected 2 ints"
    | fromIdx :: toIdx :: _ =>
      if fromIdx < 0 ∨ (nodes.length : Int) ≤ fromIdx ∨ toIdx < 0 ∨ (nodes.length : Int) ≤ toIdx then
        .error "invalid edge indices"
      else
        let fromNode := nodes.getD fromIdx.toNat defaultNode
        let toNode := nodes.getD toIdx.toNat defaultNode
        if isValidVersion fromNode.version minVersion && isValidVersion toNode.version minVersion then
          match fromNode.version, toNode.version with
          | some fromVer, some toVer =>
            match lookupA releases (versionToString fromVer) with
            | none => processEdgesMinCheckAux nodes minVersion rest releases
            | some r =>
              if r.availableUpgrades.contains (versionToString toVer) then
                processEdgesMinCheckAux nodes minVersion rest releases
              else
                processEdgesMinCheckAux nodes minVersion rest
                  (insertA releases (versionToString fromVer)
                    { r with availableUpgrades := r.availableUpgrades ++ [versionToString toVer] })
          | _, _ => processEdgesMinCheckAux nodes minVersion rest releases
        else processEdgesMinCheckAux nodes minVersion rest releases

/-- `processEdges` (revision `cincinnati-client/cincinnati_client.go`). -/
def processEdgesMinCheck (graph : Graph) (minVersion : Version) (releases : VersionReleases) :
    Except String VersionReleases :=
  processEdgesMinCheckAux graph.nodes minVersion graph.edges releases

/-- Does the caller-supplied allowed set contain every risk of the group? -/
def risksAccepted (risks : List Risk) (allowed : List String) : Bool :=
  risks.all (fun r => allowed.contains r.name)

/-- Apply the edges of one accepted conditional group. -/
def condEdgeApply : List ConditionalEdge → VersionReleases → VersionReleases
  | [], releases => releases
  | e :: rest, releases =>
    match lookupA releases e.fromVersion with
    | none => condEdgeApply rest releases
    | some r =>
      if r.availableUpgrades.contains e.toVersion then condEdgeApply rest releases
      else
        condEdgeApply rest
          (insertA releases e.fromVersion
            { r with availableUpgrades := r.availableUpgrades ++ [e.toVersion] })

/-- `processConditionalEdges`: a group's edges are applied iff every risk of
the group is contained in the allowed set. -/
def processConditionalEdges :
    List ConditionalEdges → List String → VersionReleases → VersionReleases
  | [], _, releases => releases
  | g :: rest, allowed, releases =>
    if risksAccepted g.risks allowed then
      processConditionalEdges rest allowed (condEdgeApply g.edges releases)
    else
      processConditionalEdges rest allowed releases

/-! ### Sorting available upgrades -/

/-- Comparison function derived from `Version.Compare` on parsed strings;
`sort.Slice` output is sorted with respect to this relation.  The
unparseable cases are unreachable in `SortAvailableUpgrades` because every
entry is validated first. -/
def verStrLE (a b : String) : Bool :=
  match parseVersion a, parseVersion b with
  | some va, some vb =>
    match verCompare va vb with
    | .gt => false
    | _ => true
  | some _, none => false
  | none, _ => true

/-- First entry that does not parse as a version, if any. -/
def firstBadUpgrade : List String → Option String
  | [] => none
  | up :: rest =>
    match parseVersion up with
    | none => some up
    | some _ => firstBadUpgrade rest

/-- Insert into a `verStrLE`-sorted list. -/
def insertSorted (x : String) : List String → List String
  | [] => [x]
  | y :: ys => if verStrLE x y then x :: y :: ys else y :: insertSorted x ys

/-- Comparison sort modelling `sort.Slice` with the version comparator. -/
def sortByVer (l : List String) : List String := l.foldr insertSorted []

/-- `Release.SortAvailableUpgrades`: reject the first entry that does not
parse (Go also reports its index), then sort ascending by version order. -/
def Release.SortAvailableUpgrades (r : Release) : Except String Release :=
  match firstBadUpgrade r.availableUpgrades with
  | some up =>
    .error (r.version ++ ": invalid semantic version in AvailableUpgrades: " ++ up)
  | none => .ok { r with availableUpgrades := sortByVer r.availableUpgrades }

/-! ### Aggregation (`cincinnati-client/utils.go`) -/

/-- Group key: the channel name up to (excluding) the first hyphen. -/
def channelGroup (channel : String) : String :=
  match channel.data.findIdx? (fun c => c = '-') with
  | none => channel
  | some idx => ⟨channel.data.take idx⟩

/-- Union the incoming release's upgrades into the existing release,
skipping entries already present (checked against the running list). -/
def mergeUpgrades (existing incoming : Release) : Release :=
  { existing with
    availableUpgrades :=
      incoming.availableUpgrades.foldl
        (fun acc up => if acc.contains up then acc else acc ++ [up])
        existing.availableUpgrades }

/-- The `releaseToAdd` local of the Go loop: merge into the existing
release for this version if there is one, else take the incoming release. -/
def releaseToAdd (table : VersionReleases) (ver : String) (release : Release) : Release :=
  match lookupA table ver with
  | some existing => mergeUpgrades existing release
  | none => release

/-- Merge one channel's version map into the aggregate under `group`. -/
def aggChannel (group : String) :
    List (String × Release) → ReleasesByChannel → Except String ReleasesByChannel
  | [], agg => .ok agg
  | (ver, release) :: rest, agg =>
    match (releaseToAdd ((lookupA agg group).getD []) ver release).SortAvailableUpgrades with
    | .error e => .error e
    | .ok sorted =>
      aggChannel group rest
        (insertA agg group (insertA ((lookupA agg group).getD []) ver sorted))

/-- `if aggregated[group] == nil { aggregated[group] = make(...) }`: the
group's table is created before the channel's versions are merged, so even
a channel with no versions leaves an empty group entry. -/
def ensureGroup (agg : ReleasesByChannel) (group : String) : ReleasesByChannel :=
  match lookupA agg group with
  | some _ => agg
  | none => insertA agg group []

/-- Fold all channels into the aggregate. -/
def aggregateRBC : ReleasesByChannel → ReleasesByChannel → Except String ReleasesByChannel
  | [], agg => .ok agg
  | (channel, versionMap) :: rest, agg =>
    match aggChannel (channelGroup channel) versionMap (ensureGroup agg (channelGroup channel)) with
    | .error e => .error e
    | .ok agg2 => aggregateRBC rest agg2

/-- `AggregateReleasesByChannelGroupAndSortAvailableUpgrades`. -/
def AggregateReleasesByChannelGroupAndSortAvailableUpgrades
    (releasesByChannel : ReleasesByChannel) : Except String ReleasesByChannel :=
  aggregateRBC releasesByChannel []

/-! ### The traversal engine (`DiscoverReleases`) -/

/-- Outcome of fetching one channel's graph: a parsed graph, or a fetch
error (non-success status, transport failure, or JSON parse failure). -/
abbrev GraphOutcome := Except String Graph

/-- The transport, modelled as a finite response table, exactly like the
test round-tripper's URL → response mapping. -/
abbrev GraphSource := List (String × GraphOutcome)

/-- `fetchGraph` against the response table; a channel with no mapping is a
transport failure. -/
def fetchGraph (src : GraphSource) (channel : String) : Except String Graph :=
  match lookupA src channel with
  | some outcome => outcome
  | none => .error ("no response for channel " ++ channel)

/-- Enqueue the discovered channels that are neither queued nor processed. -/
def enqueueChannels (processed : List String) :
    List String → List String → List String → List String × List String
  | [], queue, queued => (queue, queued)
  | ch :: rest, queue, queued =>
    if queued.contains ch ∨ processed.contains ch then
      enqueueChannels processed rest queue queued
    else
      enqueueChannels processed rest (queue ++ [ch]) (ch :: queued)

/-- The per-node body of the traversal: create the release (insert by
version key) and enqueue newly discovered channels. -/
def scanNodes (arch : String) (minVersion : Version) (startPfx : String) :
    List Node → VersionReleases → List String → List String → List String →
    VersionReleases × List String × List String
  | [], table, queue, queued, _ => (table, queue, queued)
  | node :: rest, table, queue, queued, processed =>
    let table2 :=
      match createRelease node arch minVersion with
      | some r => insertA table r.version r
      | none => table
    let qq := enqueueChannels processed (discoverNewChannels node startPfx minVersion) queue queued
    scanNodes arch minVersion startPfx rest table2 qq.1 qq.2 processed

/-- A log of the fetch attempts the traversal performed, in order. -/
abbrev FetchLog := List (String × GraphOutcome)

theorem length_filter_le_of_imp (p q : String → Bool)
    (h : ∀ x, p x = true → q x = true) :
    ∀ (l : List String), (l.filter p).length ≤ (l.filter q).length := by
  intro l
  induction l with
  | nil => simp
  | cons x xs ih =>
    by_cases hx : p x = true
    · rw [List.filter_cons_of_pos hx, List.filter_cons_of_pos (h x hx)]
      simpa using ih
    · rw [List.filter_cons_of_neg (by simpa using hx)]
      by_cases hq : q x = true
      · rw [List.filter_cons_of_pos hq]
        exact Nat.le_trans ih (by simp)
      · rw [List.filter_cons_of_neg (by simpa using hq)]
        exact ih

theorem filter_not_mem_cons_lt (l processed : List String) (ch : String)
    (hmem : ch ∈ l) (hnot : ch ∉ processed) :
    (l.filter (fun c => decide (¬ c ∈ (ch :: processed)))).length <
      (l.filter (fun c => decide (¬ c ∈ processed))).length := by
  induction l with
  | nil => simp at hmem
  | cons x xs ih =>
    have hle : (xs.filter (fun c => decide (¬ c ∈ (ch :: processed)))).length ≤
        (xs.filter (fun c => decide (¬ c ∈ processed))).length :=
      length_filter_le_of_imp _ _
        (fun c hc => by
          simp only [decide_eq_true_eq, List.mem_cons] at hc ⊢
          exact fun hmem2 => hc (Or.inr hmem2)) xs
    by_cases hx : x = ch
    · subst hx
      rw [List.filter_cons_of_neg (by simp), List.filter_cons_of_pos (by simpa using hnot)]
      exact Nat.lt_succ_of_le hle
    · have hxmem : ch ∈ xs := by
        rcases List.mem_cons.mp hmem with h | h
        · exact absurd h (fun hh => hx hh.symm)
        · exact h
      by_cases hkeep : x ∈ processed
      · rw [List.filter_cons_of_neg (by simp [hkeep]),
          List.filter_cons_of_neg (by simp [hkeep])]
        exact ih hxmem
      · rw [List.filter_cons_of_pos (by simp [hx, hkeep]),
          List.filter_cons_of_pos (by simp [hkeep])]
        simpa using ih hxmem

theorem fetchGraph_ok_mem {src : GraphSource} {channel : String} {graph : Graph}
    (h : fetchGraph src channel = .ok graph) : channel ∈ src.map Prod.fst := by
  unfold fetchGraph at h
  cases hl : lookupA src channel with
  | none => rw [hl] at h; simp at h
  | some outcome =>
    rw [hl] at h
    simp only at h
    subst h
    exact List.mem_map.mpr ⟨(channel, .ok graph), lookupA_mem hl, rfl⟩

/-- The breadth-first traversal loop of `DiscoverReleases`, also returning
the log of fetch attempts.  The final result is `none` when the Go code
panics (nil version dereference inside `processEdges`). -/
def discoverLoop (src : GraphSource) (arch : String) (allowed : List String)
    (minVersion : Version) (startPfx : String) :
    List String → List String → List String → ReleasesByChannel → FetchLog →
    Option (Except String ReleasesByChannel) × FetchLog
  | [], _queued, _processed, acc, log => (some (.ok acc), log)
  | channel :: queue, queued, processed, acc, log =>
    if hproc : processed.contains channel then
      discoverLoop src arch allowed minVersion startPfx queue queued processed acc log
    else
      match hfetch : fetchGraph src channel with
      | .error e =>
        (some (.error ("error fetching " ++ arch ++ " graph for channel " ++ channel ++ ": " ++ e)),
          log ++ [(channel, .error e)])
      | .ok graph =>
        let sc := scanNodes arch minVersion startPfx graph.nodes
          ((lookupA acc channel).getD []) queue queued (channel :: processed)
        match processEdges graph sc.1 with
        | none => (none, log ++ [(channel, .ok graph)])
        | some (.error e) => (some (.error e), log ++ [(channel, .ok graph)])
        | some (.ok table2) =>
          discoverLoop src arch allowed minVersion startPfx sc.2.1 sc.2.2 (channel :: processed)
            (insertA acc channel (processConditionalEdges graph.conditionalEdges allowed table2))
            (log ++ [(channel, .ok graph)])
termination_by queue queued processed acc log =>
  (((src.map Prod.fst).filter (fun c => decide (¬ c ∈ processed))).length, queue.length)
decreasing_by
  · apply Prod.Lex.right
    simp
  · apply Prod.Lex.left
    apply filter_not_mem_cons_lt
    · exact fetchGraph_ok_mem hfetch
    · simpa using hproc

theorem discoverLoop_nil (src : GraphSource) (arch : String) (allowed : List String)
    (minV : Version) (pfx : String) (qd proc : List String) (acc : ReleasesByChannel)
    (log : FetchLog) :
    discoverLoop src arch allowed minV pfx [] qd proc acc log = (some (.ok acc), log) := by
  rw [discoverLoop.eq_def]

theorem discoverLoop_skip (src : GraphSource) (arch : String) (allowed : List String)
    (minV : Version) (pfx : String) (ch : String) (q qd proc : List String)
    (acc : ReleasesByChannel) (log : FetchLog) (hc : proc.contains ch = true) :
    discoverLoop src arch allowed minV pfx (ch :: q) qd proc acc log =
      discoverLoop src arch allowed minV pfx q qd proc acc log := by
  rw [discoverLoop.eq_def]
  simp only [hc]
  rw [dif_pos trivial]

theorem discoverLoop_fetch_err (src : GraphSource) (arch : String) (allowed : List String)
    (minV : Version) (pfx : String) (ch : String) (q qd proc : List String)
    (acc : ReleasesByChannel) (log : FetchLog) (e : String)
    (hc : proc.contains ch = false) (hf : fetchGraph src ch = .error e) :
    discoverLoop src arch allowed minV pfx (ch :: q) qd proc acc log =
      (some (.error ("error fetching " ++ arch ++ " graph for channel " ++ ch ++ ": " ++ e)),
        log ++ [(ch, .error e)]) := by
  rw [discoverLoop.eq_def]
  simp only [hc]
  rw [dif_neg Bool.false_ne_true]
  split
  · rename_i e1 heq
    rw [hf] at heq
    injection heq with h2
    subst h2
    rfl
  · rename_i g heq
    rw [hf] at heq
    cases heq

theorem discoverLoop_fetch_ok (src : GraphSource) (arch : String) (allowed : List String)
    (minV : Version) (pfx : String) (ch : String) (q qd proc : List String)
    (acc : ReleasesByChannel) (log : FetchLog) (g : Graph)
    (t1 : VersionReleases) (q2 qd2 : List String) (t2 : VersionReleases)
    (hc : proc.contains ch = false) (hf : fetchGraph src ch = .ok g)
    (hscan : scanNodes arch minV pfx g.nodes ((lookupA acc ch).getD []) q qd (ch :: proc)
      = (t1, q2, qd2))
    (hpe : processEdges g t1 = some (.ok t2)) :
    discoverLoop src arch allowed minV pfx (ch :: q) qd proc acc log =
      discoverLoop src arch allowed minV pfx q2 qd2 (ch :: proc)
        (insertA acc ch (processConditionalEdges g.conditionalEdges allowed t2))
        (log ++ [(ch, .ok g)]) := by
  rw [discoverLoop.eq_def]
  simp only [hc]
  rw [dif_neg Bool.false_ne_true]
  split
  · rename_i e1 heq
    rw [hf] at heq
    cases heq
  · rename_i g1 heq
    rw [hf] at heq
    injection heq with h2
    subst h2
    rw [hscan]
    split
    · rename_i heq2
      simp only at heq2
      rw [hpe] at heq2
      cases heq2
    · rename_i e2 heq2
      simp only at heq2
      rw [hpe] at heq2
      injection heq2 with h3
      cases h3
    · rename_i t3 heq2
      simp only at heq2
      rw [hpe] at heq2
      injection heq2 with h3
      injection h3 with h4
      subst h4
      rfl

theorem discoverLoop_fetch_panic (src : GraphSource) (arch : String) (allowed : List String)
    (minV : Version) (pfx : String) (ch : String) (q qd proc : List String)
    (acc : ReleasesByChannel) (log : FetchLog) (g : Graph)
    (t1 : VersionReleases) (q2 qd2 : List String)
    (hc : proc.contains ch = false) (hf : fetchGraph src ch = .ok g)
    (hscan : scanNodes arch minV pfx g.nodes ((lookupA acc ch).getD []) q qd (ch :: proc)
      = (t1, q2, qd2))
    (hpe : processEdges g t1 = none) :
    discoverLoop src arch allowed minV pfx (ch :: q) qd proc acc log =
      (none, log ++ [(ch, .ok g)]) := by
  rw [discoverLoop.eq_def]
  simp only [hc]
  rw [dif_neg Bool.false_ne_true]
  split
  · rename_i e1 heq
    rw [hf] at heq
    cases heq
  · rename_i g1 heq
    rw [hf] at heq
    injection heq with h2
    subst h2
    rw [hscan]
    split
    · rfl
    · rename_i e2 heq2
      simp only at heq2
      rw [hpe] at heq2
      cases heq2
    · rename_i t3 heq2
      simp only at heq2
      rw [hpe] at heq2
      cases heq2

theorem discoverLoop_fetch_edge_err (src : GraphSource) (arch : String) (allowed : List String)
    (minV : Version) (pfx : String) (ch : String) (q qd proc : List String)
    (acc : ReleasesByChannel) (log : FetchLog) (g : Graph)
    (t1 : VersionReleases) (q2 qd2 : List String) (e : String)
    (hc : proc.contains ch = false) (hf : fetchGraph src ch = .ok g)
    (hscan : scanNodes arch minV pfx g.nodes ((lookupA acc ch).getD []) q qd (ch :: proc)
      = (t1, q2, qd2))
    (hpe : processEdges g t1 = some (.error e)) :
    discoverLoop src arch allowed minV pfx (ch :: q) qd proc acc log =
      (some (.error e), log ++ [(ch, .ok g)]) := by
  rw [discoverLoop.eq_def]
  simp only [hc]
  rw [dif_neg Bool.false_ne_true]
  split
  · rename_i e1 heq
    rw [hf] at heq
    cases heq
  · rename_i g1 heq
    rw [hf] at heq
    injection heq with h2
    subst h2
    rw [hscan]
    split
    · rename_i heq2
      simp only at heq2
      rw [hpe] at heq2
      cases heq2
    · rename_i e2 heq2
      simp only at heq2
      rw [hpe] at heq2
      injection heq2 with h3
      injection h3 with h4
      subst h4
      rfl
    · rename_i t3 heq2
      simp only at heq2
      rw [hpe] at heq2
      injection heq2 with h3
      cases h3

/-- Fuel-driven twin of `discoverLoop`, used to evaluate the loop on
concrete inputs by kernel reduction; `none` means the fuel ran out. -/
def discoverLoopF (src : GraphSource) (arch : String) (allowed : List String)
    (minVersion : Version) (startPfx : String) :
    Nat → List String → List String → List String → ReleasesByChannel → FetchLog →
    Option (Option (Except String ReleasesByChannel) × FetchLog)
  | 0, _, _, _, _, _ => none
  | _ + 1, [], _queued, _processed, acc, log => some (some (.ok acc), log)
  | fuel + 1, channel :: queue, queued, processed, acc, log =>
    if processed.contains channel then
      discoverLoopF src arch allowed minVersion startPfx fuel queue queued processed acc log
    else
      match fetchGraph src channel with
      | .error e =>
        some (some (.error ("error fetching " ++ arch ++ " graph for channel " ++ channel ++ ": " ++ e)),
          log ++ [(channel, .error e)])
      | .ok graph =>
        let sc := scanNodes arch minVersion startPfx graph.nodes
          ((lookupA acc channel).getD []) queue queued (channel :: processed)
        match processEdges graph sc.1 with
        | none => some (none, log ++ [(channel, .ok graph)])
        | some (.error e) => some (some (.error e), log ++ [(channel, .ok graph)])
        | some (.ok table2) =>
          discoverLoopF src arch allowed minVersion startPfx fuel sc.2.1 sc.2.2 (channel :: processed)
            (insertA acc channel (processConditionalEdges graph.conditionalEdges allowed table2))
            (log ++ [(channel, .ok graph)])

/-- Whenever the fuel-driven evaluator produces an answer, it is the answer
of the traversal loop. -/
theorem discoverLoopF_sound (src : GraphSource) (arch : String) (allowed : List String)
    (minV : Version) (pfx : String) :
    ∀ (fuel : Nat) (queue qd proc : List String) (acc : ReleasesByChannel) (log : FetchLog)
      (r : Option (Except String ReleasesByChannel) × FetchLog),
      discoverLoopF src arch allowed minV pfx fuel queue qd proc acc log = some r →
      discoverLoop src arch allowed minV pfx queue qd proc acc log = r := by
  intro fuel
  induction fuel with
  | zero => intro queue qd proc acc log r h; simp [discoverLoopF] at h
  | succ fuel ih =>
    intro queue qd proc acc log r h
    match queue with
    | [] =>
      simp only [discoverLoopF] at h
      injection h with h2
      rw [discoverLoop_nil, h2]
    | channel :: queue =>
      by_cases hc : proc.contains channel = true
      · rw [discoverLoop_skip _ _ _ _ _ _ _ _ _ _ _ hc]
        simp only [discoverLoopF, hc, if_pos] at h
        exact ih _ _ _ _ _ _ h
      · have hc' : proc.contains channel = false := by
          cases hcc : proc.contains channel
          · rfl
          · exact absurd hcc hc
        simp only [discoverLoopF, hc', Bool.false_eq_true, if_neg, if_false] at h
        cases hf : fetchGraph src channel with
        | error e =>
          rw [hf] at h
          injection h with h2
          rw [discoverLoop_fetch_err _ _ _ _ _ _ _ _ _ _ _ _ hc' hf, h2]
        | ok graph =>
          rw [hf] at h
          simp only at h
          cases hpe : processEdges graph (scanNodes arch minV pfx graph.nodes
              ((lookupA acc channel).getD []) queue qd (channel :: proc)).1 with
          | none =>
            rw [hpe] at h
            injection h with h2
            rw [discoverLoop_fetch_panic _ _ _ _ _ _ _ _ _ _ _ graph _ _ _ hc' hf rfl hpe, h2]
          | some res =>
            cases res with
            | error e =>
              rw [hpe] at h
              injection h with h2
              rw [discoverLoop_fetch_edge_err _ _ _ _ _ _ _ _ _ _ _ graph _ _ _ _ hc' hf rfl hpe, h2]
            | ok table2 =>
              rw [hpe] at h
              rw [discoverLoop_fetch_ok _ _ _ _ _ _ _ _ _ _ _ graph _ _ _ _ hc' hf rfl hpe]
              exact ih _ _ _ _ _ _ h

/-- `discoverReleases` / `DiscoverReleases`, together with the fetch log:
validate the start channel, seed the queue with it, and drain the queue. -/
def discoverReleasesLog (src : GraphSource) (startChannel arch : String)
    (allowed : List String) : Option (Except String ReleasesByChannel) × FetchLog :=
  match splitChannel startChannel with
  | .error e => (some (.error e), [])
  | .ok (pfx, verStr) =>
    match parseVersion verStr with
    | none => (some (.error ("invalid version: " ++ verStr)), [])
    | some minVersion =>
      discoverLoop src arch allowed minVersion pfx [startChannel] [startChannel] [] [] []

/-- `DiscoverReleases`: `some (.ok _)` is a successful return, `some
(.error _)` an error return, `none` a panic. -/
def DiscoverReleases (src : GraphSource) (startChannel arch : String)
    (allowed : List String) : Option (Except String ReleasesByChannel) :=
  (discoverReleasesLog src startChannel arch allowed).1

/-! ### Risk acceptance (claim C2) -/

theorem risksAccepted_iff (risks : List Risk) (allowed : List String) :
    risksAccepted risks allowed = true ↔ ∀ r ∈ risks, r.name ∈ allowed := by
  simp [risksAccepted]

/-- C2: a conditional edge group's edges are applied to the release table
iff every risk name of the group is a member of the allowed set; acceptance
is monotone under supersets (so a strict superset still applies the group),
a group with a risk outside the allowed set is never applied, and the empty
allowed set accepts a group exactly when the group's risk list is empty. -/
theorem claim_C2_conditional_edges_risk_gate (g : ConditionalEdges)
    (allowed : List String) (releases : VersionReleases) :
    (processConditionalEdges [g] allowed releases =
      if ∀ r ∈ g.risks, r.name ∈ allowed then condEdgeApply g.edges releases else releases)
    ∧ (∀ allowed2 : List String, (∀ a ∈ allowed, a ∈ allowed2) →
        risksAccepted g.risks allowed = true → risksAccepted g.risks allowed2 = true)
    ∧ ((∃ r ∈ g.risks, r.name ∉ allowed) →
        processConditionalEdges [g] allowed releases = releases)
    ∧ (risksAccepted g.risks [] = true ↔ g.risks = []) := by
  refine ⟨?_, ?_, ?_, ?_⟩
  · by_cases h : ∀ r ∈ g.risks, r.name ∈ allowed
    · rw [if_pos h]
      simp [processConditionalEdges, (risksAccepted_iff g.risks allowed).mpr h]
    · rw [if_neg h]
      have : risksAccepted g.risks allowed = false := by
        cases hr : risksAccepted g.risks allowed
        · rfl
        · exact absurd ((risksAccepted_iff g.risks allowed).mp hr) h
      simp [processConditionalEdges, this]
  · intro allowed2 hsub hacc
    rw [risksAccepted_iff] at hacc ⊢
    exact fun r hr => hsub _ (hacc r hr)
  · rintro ⟨r, hr, hnot⟩
    have : risksAccepted g.risks allowed = false := by
      cases hacc : risksAccepted g.risks allowed
      · rfl
      · exact absurd ((risksAccepted_iff g.risks allowed).mp hacc r hr) hnot
    simp [processConditionalEdges, this]
  · rw [risksAccepted_iff]
    constructor
    · intro h
      cases hr : g.risks with
      | nil => rfl
      | cons r rest => exact absurd (h r (by rw [hr]; simp)) (by simp)
    · intro h
      rw [h]
      simp

/-- C2 witness: concrete instances of the gate (spec scenario 3). -/
theorem claim_C2_witness :
    processConditionalEdges [⟨[⟨"4.16.1", "4.16.3"⟩], [⟨"RiskA"⟩]⟩] ["RiskA"]
        [("4.16.1", { version := "4.16.1", arch := "amd64", payload := "p" })] =
      condEdgeApply [⟨"4.16.1", "4.16.3"⟩]
        [("4.16.1", { version := "4.16.1", arch := "amd64", payload := "p" })]
    ∧ processConditionalEdges [⟨[⟨"4.16.1", "4.16.3"⟩], [⟨"RiskA"⟩]⟩] []
        [("4.16.1", { version := "4.16.1", arch := "amd64", payload := "p" })] =
      [("4.16.1", { version := "4.16.1", arch := "amd64", payload := "p" })] := by
  constructor
  · rw [(claim_C2_conditional_edges_risk_gate ⟨[⟨"4.16.1", "4.16.3"⟩], [⟨"RiskA"⟩]⟩ ["RiskA"] _).1]
    rw [if_pos (by decide)]
  · exact (claim_C2_conditional_edges_risk_gate _ [] _).2.2.1 ⟨⟨"RiskA"⟩, by simp, by simp⟩

/-! ### Channel discovery (claim C9) -/

/-- C9: a candidate channel name is discovered iff it is a trimmed entry of
the node's channels metadata that carries the start prefix, whose trailing
token parses as a version, and whose version meets the minimum.  In
particular a candidate whose trailing token fails to parse is skipped, and
since `discoverNewChannels` is a total function the traversal can never
abort because of it. -/
theorem claim_C9_malformed_candidates_skipped (node : Node) (pfx : String)
    (minV : Version) (ch : String) :
    ch ∈ discoverNewChannels node pfx minV ↔
      ∃ meta, lookupA node.metadata channelsMetadataKey = some meta ∧
        ch ∈ (splitOnChar ',' meta.data).map (fun cs => trimSpace ⟨cs⟩) ∧
        startsWith pfx ch = true ∧
        ∃ v, extractSemVersionFromChannel ch pfx = some v ∧
          isValidVersion (some v) minV = true := by
  unfold discoverNewChannels
  cases hmeta : lookupA node.metadata channelsMetadataKey with
  | none => simp
  | some meta =>
    simp only [List.mem_filter, hmeta, Option.some.injEq]
    constructor
    · rintro ⟨hmem, hcond⟩
      refine ⟨meta, rfl, hmem, ?_⟩
      rcases Bool.and_eq_true_iff.mp hcond with ⟨hpfx, hrest⟩
      refine ⟨hpfx, ?_⟩
      cases hext : extractSemVersionFromChannel ch pfx with
      | none => rw [hext] at hrest; simp at hrest
      | some v =>
        rw [hext] at hrest
        exact ⟨v, rfl, hrest⟩
    · rintro ⟨meta2, hmeta2, hmem, hpfx, v, hext, hvalid⟩
      subst hmeta2
      refine ⟨hmem, ?_⟩
      rw [Bool.and_eq_true]
      exact ⟨hpfx, by rw [hext]; exact hvalid⟩

/-! ### Version keys meet the minimum (claim C1) -/

/-- A version key that parses and compares at least the minimum version. -/
def goodKey (minV : Version) (k : String) : Prop :=
  ∃ w, parseVersion k = some w ∧ verCompare w minV ≠ .lt

/-- All version keys of the table qualify. -/
def goodTable (minV : Version) (t : VersionReleases) : Prop := ∀ p ∈ t, goodKey minV p.1

/-- All version keys of every channel's table qualify. -/
def goodRBC (minV : Version) (acc : ReleasesByChannel) : Prop := ∀ p ∈ acc, goodTable minV p.2

theorem goodTable_insertA {minV : Version} {t : VersionReleases} {k : String} {v : Release}
    (ht : goodTable minV t) (hk : goodKey minV k) : goodTable minV (insertA t k v) := by
  rintro ⟨pk, pv⟩ hp
  rcases mem_insertA hp with h | ⟨h1, h2⟩
  · exact ht _ h
  · subst h1; exact hk

theorem isValidVersion_some_iff (v minV : Version) :
    isValidVersion (some v) minV = true ↔ verCompare v minV ≠ .lt := by
  unfold isValidVersion
  cases h : verCompare v minV <;> simp [h]

theorem createRelease_some {node : Node} {arch : String} {minV : Version} {r : Release}
    (h : createRelease node arch minV = some r) :
    ∃ v, node.version = some v ∧ verCompare v minV ≠ .lt ∧
      r = { version := versionToString v, arch := arch, payload := node.payload } := by
  cases hv : node.version with
  | none => simp [createRelease, hv] at h
  | some v =>
    simp only [createRelease, hv] at h
    split at h
    · rename_i hval
      injection h with h2
      exact ⟨v, rfl, (isValidVersion_some_iff v minV).mp hval, h2.symm⟩
    · cases h

theorem goodKey_createRelease {node : Node} {arch : String} {minV : Version} {r : Release}
    (h : createRelease node arch minV = some r) : goodKey minV r.version := by
  obtain ⟨v, _, hge, rfl⟩ := createRelease_some h
  obtain ⟨u, hu, hcmp⟩ := verCompare_parse_print v minV
  exact ⟨u, hu, by rw [hcmp]; exact hge⟩

theorem scanNodes_goodTable (arch : String) (minV : Version) (pfx : String) :
    ∀ (nodes : List Node) (t : VersionReleases) (q qd proc : List String),
      goodTable minV t → goodTable minV (scanNodes arch minV pfx nodes t q qd proc).1 := by
  intro nodes
  induction nodes with
  | nil => intro t q qd proc ht; simpa [scanNodes] using ht
  | cons node rest ih =>
    intro t q qd proc ht
    simp only [scanNodes]
    cases hcr : createRelease node arch minV with
    | none => simpa [hcr] using ih _ _ _ _ ht
    | some r => simpa [hcr] using ih _ _ _ _ (goodTable_insertA ht (goodKey_createRelease hcr))

theorem processEdgesAux_goodTable {minV : Version} (nodes : List Node) :
    ∀ (edges : List (List Int)) (t t' : VersionReleases),
      processEdgesAux nodes edges t = some (.ok t') → goodTable minV t → goodTable minV t' := by
  intro edges
  induction edges with
  | nil =>
    intro t t' h ht
    simp only [processEdgesAux] at h
    injection h with h2
    injection h2 with h3
    rw [← h3]
    exact ht
  | cons e rest ih =>
    intro t t' h ht
    simp only [processEdgesAux] at h
    split at h
    · simp at h
    · simp at h
    · split at h
      · simp at h
      · split at h
        · simp at h
        · split at h
          · exact ih _ _ h ht
          · split at h
            · simp at h
            · split at h
              · exact ih _ _ h ht
              · refine ih _ _ h (goodTable_insertA ht ?_)
                exact ht _ (lookupA_mem (by assumption))

theorem condEdgeApply_goodTable {minV : Version} :
    ∀ (edges : List ConditionalEdge) (t : VersionReleases),
      goodTable minV t → goodTable minV (condEdgeApply edges t) := by
  intro edges
  induction edges with
  | nil => intro t ht; simpa [condEdgeApply] using ht
  | cons e rest ih =>
    intro t ht
    rw [condEdgeApply]
    split
    · exact ih _ ht
    · rename_i r hlook
      split
      · exact ih _ ht
      · exact ih _ (goodTable_insertA ht (ht _ (lookupA_mem hlook)))

theorem processConditionalEdges_goodTable {minV : Version} :
    ∀ (groups : List ConditionalEdges) (allowed : List String) (t : VersionReleases),
      goodTable minV t → goodTable minV (processConditionalEdges groups allowed t) := by
  intro groups
  induction groups with
  | nil => intro allowed t ht; simpa [processConditionalEdges] using ht
  | cons g rest ih =>
    intro allowed t ht
    rw [processConditionalEdges]
    split
    · exact ih _ _ (condEdgeApply_goodTable _ _ ht)
    · exact ih _ _ ht

theorem discoverLoop_goodRBC (src : GraphSource) (arch : String) (allowed : List String)
    (minV : Version) (pfx : String) :
    ∀ (queue qd proc : List String) (acc : ReleasesByChannel) (log : FetchLog),
      goodRBC minV acc →
      ∀ (res : ReleasesByChannel) (lg : FetchLog),
        discoverLoop src arch allowed minV pfx queue qd proc acc log = (some (.ok res), lg) →
        goodRBC minV res := by
  intro queue qd proc acc log
  induction queue, qd, proc, acc, log using discoverLoop.induct src arch allowed minV pfx with
  | case1 qd proc acc log =>
    intro hacc res lg h
    rw [discoverLoop_nil] at h
    injection h with h1 h2
    injection h1 with h3
    injection h3 with h4
    rw [← h4]
    exact hacc
  | case2 ch q qd proc acc log hc ih =>
    intro hacc res lg h
    rw [discoverLoop_skip _ _ _ _ _ _ _ _ _ _ _ hc] at h
    exact ih hacc res lg h
  | case3 ch q qd proc acc log hc e hf =>
    intro hacc res lg h
    have hc' : proc.contains ch = false := by
      cases hcc : proc.contains ch
      · rfl
      · exact absurd hcc hc
    rw [discoverLoop_fetch_err _ _ _ _ _ _ _ _ _ _ _ _ hc' hf] at h
    injection h with h1 h2
    injection h1 with h3
    cases h3
  | case4 ch q qd proc acc log hc g hf sc hpe =>
    intro hacc res lg h
    have hc' : proc.contains ch = false := by
      cases hcc : proc.contains ch
      · rfl
      · exact absurd hcc hc
    rw [discoverLoop_fetch_panic _ _ _ _ _ _ _ _ _ _ _ g _ _ _ hc' hf rfl hpe] at h
    injection h with h1 h2
    cases h1
  | case5 ch q qd proc acc log hc g hf sc e hpe =>
    intro hacc res lg h
    have hc' : proc.contains ch = false := by
      cases hcc : proc.contains ch
      · rfl
      · exact absurd hcc hc
    rw [discoverLoop_fetch_edge_err _ _ _ _ _ _ _ _ _ _ _ g _ _ _ _ hc' hf rfl hpe] at h
    injection h with h1 h2
    injection h1 with h3
    cases h3
  | case6 ch q qd proc acc log hc g hf sc table2 hpe ih =>
    intro hacc res lg h
    have hc' : proc.contains ch = false := by
      cases hcc : proc.contains ch
      · rfl
      · exact absurd hcc hc
    rw [discoverLoop_fetch_ok _ _ _ _ _ _ _ _ _ _ _ g _ _ _ _ hc' hf rfl hpe] at h
    have htab0 : goodTable minV ((lookupA acc ch).getD []) := by
      cases hl : lookupA acc ch with
      | none => rintro p hp; simp [lookupA] at hp
      | some t0 =>
        show goodTable minV ((some t0).getD [])
        exact hacc _ (lookupA_mem hl)
    have ht1 := scanNodes_goodTable arch minV pfx g.nodes ((lookupA acc ch).getD [])
      q qd (ch :: proc) htab0
    have ht2 : goodTable minV table2 := processEdgesAux_goodTable g.nodes _ _ _ hpe ht1
    have ht3 := processConditionalEdges_goodTable g.conditionalEdges allowed table2 ht2
    refine ih ?_ res lg h
    rintro ⟨pk, pv⟩ hp
    rcases mem_insertA hp with hmem | ⟨h1, h2⟩
    · exact hacc _ hmem
    · subst h2
      exact ht3

/-- C1: when `DiscoverReleases` succeeds for a start channel whose trailing
token parses to minimum version `m`, every version key of every discovered
channel's `VersionReleases` parses to a version comparing at least `m`;
equivalently at the node level, `createRelease` yields a release iff the
node's version is present and compares at least the minimum. -/
theorem claim_C1_min_version_gate (src : GraphSource) (startChannel arch : String)
    (allowed : List String) (pfx tok : String) (m : Version) (res : ReleasesByChannel)
    (hsplit : splitChannel startChannel = .ok (pfx, tok))
    (hparse : parseVersion tok = some m)
    (hok : DiscoverReleases src startChannel arch allowed = some (.ok res)) :
    (∀ ch t, lookupA res ch = some t →
      ∀ k r, lookupA t k = some r → ∃ w, parseVersion k = some w ∧ verCompare w m ≠ .lt)
    ∧ (∀ (node : Node) (a : String),
        (∃ r, createRelease node a m = some r) ↔
          ∃ v, node.version = some v ∧ verCompare v m ≠ .lt) := by
  constructor
  · intro ch t hcht k r hkr
    have hlog : discoverReleasesLog src startChannel arch allowed
        = discoverLoop src arch allowed m pfx [startChannel] [startChannel] [] [] [] := by
      simp only [discoverReleasesLog, hsplit, hparse]
    have hok2 : (discoverLoop src arch allowed m pfx [startChannel] [startChannel] [] [] []).1
        = some (.ok res) := by
      rw [← hlog]
      exact hok
    have hpair : discoverLoop src arch allowed m pfx [startChannel] [startChannel] [] [] []
        = (some (.ok res),
            (discoverLoop src arch allowed m pfx [startChannel] [startChannel] [] [] []).2) := by
      rw [← hok2]
    have hgood := discoverLoop_goodRBC src arch allowed m pfx
      [startChannel] [startChannel] [] [] []
      (by rintro p hp; simp at hp) res _ hpair
    obtain ⟨w, hw, hcmp⟩ := hgood _ (lookupA_mem hcht) _ (lookupA_mem hkr)
    exact ⟨w, hw, hcmp⟩
  · intro node a
    constructor
    · rintro ⟨r, hr⟩
      obtain ⟨v, hv, hge, _⟩ := createRelease_some hr
      exact ⟨v, hv, hge⟩
    · rintro ⟨v, hv, hge⟩
      refine ⟨{ version := versionToString v, arch := a, payload := node.payload }, ?_⟩
      simp only [createRelease, hv]
      rw [if_pos ((isValidVersion_some_iff v m).mpr hge)]

/-! ### Concrete fixtures used by the witnesses -/

/-- Fixture node `4.16.1`, a member of `stable-4.16` only. -/
def wNode1 : Node :=
  { version := some ⟨4, [16, 1]⟩, payload := "p1",
    metadata := [(channelsMetadataKey, "stable-4.16")] }

/-- Fixture node `4.16.2`, also a member of `stable-4.17`. -/
def wNode2 : Node :=
  { version := some ⟨4, [16, 2]⟩, payload := "p2",
    metadata := [(channelsMetadataKey, "stable-4.16,stable-4.17")] }

/-- Fixture node `4.17.5`. -/
def wNode3 : Node :=
  { version := some ⟨4, [17, 5]⟩, payload := "p3", metadata := [] }

/-- Fixture graph for `stable-4.16`: two nodes and the edge `0 → 1`. -/
def wGraph1 : Graph := { nodes := [wNode1, wNode2], edges := [[0, 1]], conditionalEdges := [] }

/-- Fixture graph for `stable-4.17`. -/
def wGraph2 : Graph := { nodes := [wNode3], edges := [], conditionalEdges := [] }

/-- Two-channel fixture source. -/
def wSrc : GraphSource := [("stable-4.16", .ok wGraph1), ("stable-4.17", .ok wGraph2)]

/-- Expected release `4.16.1` (its edge target appended). -/
def wRel1 : Release :=
  { version := "4.16.1", arch := "amd64", payload := "p1", availableUpgrades := ["4.16.2"] }

/-- Expected release `4.16.2`. -/
def wRel2 : Release := { version := "4.16.2", arch := "amd64", payload := "p2" }

/-- Expected release `4.17.5`. -/
def wRel3 : Release := { version := "4.17.5", arch := "amd64", payload := "p3" }

/-- Expected discovery result over `wSrc`. -/
def wRes : ReleasesByChannel :=
  [ ("stable-4.16", [("4.16.1", wRel1), ("4.16.2", wRel2)]),
    ("stable-4.17", [("4.17.5", wRel3)]) ]

/-- Concrete run of the traversal over the fixture source (this is also the
spec's concrete scenarios 1 and 2: the edge `0 → 1` becomes `4.16.1 →
4.16.2`, and `stable-4.17` is discovered from node metadata and fetched). -/
theorem wSrc_run : DiscoverReleases wSrc "stable-4.16" "amd64" [] = some (.ok wRes) := by
  show (discoverReleasesLog wSrc "stable-4.16" "amd64" []).1 = _
  have h := discoverLoopF_sound wSrc "amd64" [] ⟨4, [16, 0]⟩ "stable-" 20
    ["stable-4.16"] ["stable-4.16"] [] [] []
    (some (.ok wRes), [("stable-4.16", .ok wGraph1), ("stable-4.17", .ok wGraph2)]) rfl
  show (discoverLoop wSrc "amd64" [] ⟨4, [16, 0]⟩ "stable-" ["stable-4.16"] ["stable-4.16"] [] [] []).1 = _
  rw [h]

/-- C1 witness: the theorem applied to the fixture run, and its conclusion
evaluated at the key `4.16.1` of channel `stable-4.16`. -/
theorem claim_C1_witness :
    ∃ w, parseVersion "4.16.1" = some w ∧ verCompare w ⟨4, [16, 0]⟩ ≠ .lt := by
  have h := claim_C1_min_version_gate wSrc "stable-4.16" "amd64" [] "stable-" "4.16"
    ⟨4, [16, 0]⟩ wRes rfl rfl wSrc_run
  exact h.1 "stable-4.16" _ rfl "4.16.1" _ rfl

/-! ### Idempotent visitation (claim C3) -/

theorem discoverLoop_log_nodup (src : GraphSource) (arch : String) (allowed : List String)
    (minV : Version) (pfx : String) :
    ∀ (queue qd proc : List String) (acc : ReleasesByChannel) (log : FetchLog),
      (log.map Prod.fst).Nodup →
      (∀ c ∈ log.map Prod.fst, proc.contains c = true) →
      (((discoverLoop src arch allowed minV pfx queue qd proc acc log).2).map Prod.fst).Nodup := by
  intro queue qd proc acc log
  induction queue, qd, proc, acc, log using discoverLoop.induct src arch allowed minV pfx with
  | case1 qd proc acc log =>
    intro hnd hproc
    rw [discoverLoop_nil]
    exact hnd
  | case2 ch q qd proc acc log hc ih =>
    intro hnd hproc
    rw [discoverLoop_skip _ _ _ _ _ _ _ _ _ _ _ hc]
    exact ih hnd hproc
  | case3 ch q qd proc acc log hc e hf =>
    intro hnd hproc
    have hc' : proc.contains ch = false := by
      cases hcc : proc.contains ch
      · rfl
      · exact absurd hcc hc
    rw [discoverLoop_fetch_err _ _ _ _ _ _ _ _ _ _ _ _ hc' hf]
    have hchnot : ch ∉ log.map Prod.fst := fun hin => by rw [hproc ch hin] at hc'; cases hc'
    simp only [List.map_append, List.map_cons, List.map_nil]
    rw [List.nodup_append]
    exact ⟨hnd, List.nodup_singleton ch, by simpa using hchnot⟩
  | case4 ch q qd proc acc log hc g hf sc hpe =>
    intro hnd hproc
    have hc' : proc.contains ch = false := by
      cases hcc : proc.contains ch
      · rfl
      · exact absurd hcc hc
    rw [discoverLoop_fetch_panic _ _ _ _ _ _ _ _ _ _ _ g _ _ _ hc' hf rfl hpe]
    have hchnot : ch ∉ log.map Prod.fst := fun hin => by rw [hproc ch hin] at hc'; cases hc'
    simp only [List.map_append, List.map_cons, List.map_nil]
    rw [List.nodup_append]
    exact ⟨hnd, List.nodup_singleton ch, by simpa using hchnot⟩
  | case5 ch q qd proc acc log hc g hf sc e hpe =>
    intro hnd hproc
    have hc' : proc.contains ch = false := by
      cases hcc : proc.contains ch
      · rfl
      · exact absurd hcc hc
    rw [discoverLoop_fetch_edge_err _ _ _ _ _ _ _ _ _ _ _ g _ _ _ _ hc' hf rfl hpe]
    have hchnot : ch ∉ log.map Prod.fst := fun hin => by rw [hproc ch hin] at hc'; cases hc'
    simp only [List.map_append, List.map_cons, List.map_nil]
    rw [List.nodup_append]
    exact ⟨hnd, List.nodup_singleton ch, by simpa using hchnot⟩
  | case6 ch q qd proc acc log hc g hf sc table2 hpe ih =>
    intro hnd hproc
    have hc' : proc.contains ch = false := by
      cases hcc : proc.contains ch
      · rfl
      · exact absurd hcc hc
    rw [discoverLoop_fetch_ok _ _ _ _ _ _ _ _ _ _ _ g _ _ _ _ hc' hf rfl hpe]
    have hchnot : ch ∉ log.map Prod.fst := fun hin => by rw [hproc ch hin] at hc'; cases hc'
    refine ih ?_ ?_
    · simp only [List.map_append, List.map_cons, List.map_nil]
      rw [List.nodup_append]
      exact ⟨hnd, List.nodup_singleton ch, by simpa using hchnot⟩
    · intro c hcmem
      simp only [List.map_append, List.map_cons, List.map_nil, List.mem_append,
        List.mem_singleton] at hcmem
      rcases hcmem with hcmem | rfl
      · simp only [List.contains_cons, Bool.or_eq_true]
        exact Or.inr (hproc c hcmem)
      · simp [List.contains_cons]

/-- C3: over any graph source, each channel name is fetched at most once
during one `DiscoverReleases` traversal: the chronological log of fetch
attempts never repeats a channel, even when a channel is rediscovered by
several nodes or queued repeatedly.  Termination of the queue-draining loop
is witnessed by `discoverLoop` itself, whose recursion is well-founded by
the measure (unprocessed channels of the source, queue length). -/
theorem claim_C3_channels_fetched_at_most_once (src : GraphSource)
    (startChannel arch : String) (allowed : List String) :
    (((discoverReleasesLog src startChannel arch allowed).2).map Prod.fst).Nodup := by
  unfold discoverReleasesLog
  cases hsp : splitChannel startChannel with
  | error e => simp
  | ok p =>
    obtain ⟨pfx, tok⟩ := p
    simp only
    cases hpv : parseVersion tok with
    | none => simp
    | some m =>
      simp only
      exact discoverLoop_log_nodup src arch allowed m pfx [startChannel] [startChannel] [] [] []
        (by simp) (by simp)

/-! ### Fetch failures abort with context (claim C6) -/

theorem discoverLoop_log_error (src : GraphSource) (arch : String) (allowed : List String)
    (minV : Version) (pfx : String) :
    ∀ (queue qd proc : List String) (acc : ReleasesByChannel) (log : FetchLog)
      (ch e : String),
      (ch, Except.error e) ∈ (discoverLoop src arch allowed minV pfx queue qd proc acc log).2 →
      (ch, Except.error e) ∉ log →
      (discoverLoop src arch allowed minV pfx queue qd proc acc log).1 =
        some (.error ("error fetching " ++ arch ++ " graph for channel " ++ ch ++ ": " ++ e)) := by
  intro queue qd proc acc log
  induction queue, qd, proc, acc, log using discoverLoop.induct src arch allowed minV pfx with
  | case1 qd proc acc log =>
    intro ch e hmem hnot
    rw [discoverLoop_nil] at hmem ⊢
    exact absurd hmem hnot
  | case2 ch1 q qd proc acc log hc ih =>
    intro ch e hmem hnot
    rw [discoverLoop_skip _ _ _ _ _ _ _ _ _ _ _ hc] at hmem ⊢
    exact ih ch e hmem hnot
  | case3 ch1 q qd proc acc log hc e1 hf =>
    intro ch e hmem hnot
    have hc' : proc.contains ch1 = false := by
      cases hcc : proc.contains ch1
      · rfl
      · exact absurd hcc hc
    rw [discoverLoop_fetch_err _ _ _ _ _ _ _ _ _ _ _ _ hc' hf] at hmem ⊢
    simp only [List.mem_append, List.mem_singleton] at hmem
    rcases hmem with hmem | heq
    · exact absurd hmem hnot
    · injection heq with h1 h2
      subst h1
      injection h2 with h3
      subst h3
      rfl
  | case4 ch1 q qd proc acc log hc g hf sc hpe =>
    intro ch e hmem hnot
    have hc' : proc.contains ch1 = false := by
      cases hcc : proc.contains ch1
      · rfl
      · exact absurd hcc hc
    rw [discoverLoop_fetch_panic _ _ _ _ _ _ _ _ _ _ _ g _ _ _ hc' hf rfl hpe] at hmem ⊢
    simp only [List.mem_append, List.mem_singleton] at hmem
    rcases hmem with hmem | heq
    · exact absurd hmem hnot
    · injection heq with h1 h2
      cases h2
  | case5 ch1 q qd proc acc log hc g hf sc e1 hpe =>
    intro ch e hmem hnot
    have hc' : proc.contains ch1 = false := by
      cases hcc : proc.contains ch1
      · rfl
      · exact absurd hcc hc
    rw [discoverLoop_fetch_edge_err _ _ _ _ _ _ _ _ _ _ _ g _ _ _ _ hc' hf rfl hpe] at hmem ⊢
    simp only [List.mem_append, List.mem_singleton] at hmem
    rcases hmem with hmem | heq
    · exact absurd hmem hnot
    · injection heq with h1 h2
      cases h2
  | case6 ch1 q qd proc acc log hc g hf sc table2 hpe ih =>
    intro ch e hmem hnot
    have hc' : proc.contains ch1 = false := by
      cases hcc : proc.contains ch1
      · rfl
      · exact absurd hcc hc
    rw [discoverLoop_fetch_ok _ _ _ _ _ _ _ _ _ _ _ g _ _ _ _ hc' hf rfl hpe] at hmem ⊢
    refine ih ch e hmem ?_
    intro hin
    rcases List.mem_append.mp hin with hin | hin
    · exact hnot hin
    · simp only [List.mem_singleton] at hin
      injection hin with h1 h2
      cases h2

/-- C6: whenever the traversal's fetch of some channel fails, the whole
`DiscoverReleases` call returns exactly the error "error fetching {arch}
graph for channel {channel}: …" wrapping the underlying cause; since the
error return carries no `ReleasesByChannel`, every partial result
accumulated for previously processed channels is discarded. -/
theorem claim_C6_fetch_failure_aborts_with_context (src : GraphSource)
    (startChannel arch : String) (allowed : List String) (ch e : String)
    (hmem : (ch, Except.error e) ∈ (discoverReleasesLog src startChannel arch allowed).2) :
    DiscoverReleases src startChannel arch allowed =
      some (.error ("error fetching " ++ arch ++ " graph for channel " ++ ch ++ ": " ++ e)) := by
  cases hsp : splitChannel startChannel with
  | error e1 =>
    have hred : discoverReleasesLog src startChannel arch allowed = (some (.error e1), []) := by
      simp only [discoverReleasesLog, hsp]
    rw [hred] at hmem
    simp at hmem
  | ok p =>
    obtain ⟨pfx, tok⟩ := p
    cases hpv : parseVersion tok with
    | none =>
      have hred : discoverReleasesLog src startChannel arch allowed
          = (some (.error ("invalid version: " ++ tok)), []) := by
        simp only [discoverReleasesLog, hsp, hpv]
      rw [hred] at hmem
      simp at hmem
    | some m =>
      have hlog : discoverReleasesLog src startChannel arch allowed
          = discoverLoop src arch allowed m pfx [startChannel] [startChannel] [] [] [] := by
        simp only [discoverReleasesLog, hsp, hpv]
      rw [hlog] at hmem
      show (discoverReleasesLog src startChannel arch allowed).1 = _
      rw [hlog]
      exact discoverLoop_log_error src arch allowed m pfx [startChannel] [startChannel] [] [] []
        ch e hmem (by simp)

/-- Fixture source whose only channel fails with a non-success status. -/
def wBadSrc : GraphSource := [("fast-4.16", .error "error: status 500")]

/-- C6 witness: the failing fixture aborts with the documented message. -/
theorem claim_C6_witness :
    DiscoverReleases wBadSrc "fast-4.16" "amd64" [] =
      some (.error "error fetching amd64 graph for channel fast-4.16: error: status 500") := by
  have hrun := discoverLoopF_sound wBadSrc "amd64" [] ⟨4, [16, 0]⟩ "fast-" 20
    ["fast-4.16"] ["fast-4.16"] [] [] []
    (some (.error "error fetching amd64 graph for channel fast-4.16: error: status 500"),
      [("fast-4.16", .error "error: status 500")]) rfl
  have hmem : ("fast-4.16", Except.error "error: status 500")
      ∈ (discoverReleasesLog wBadSrc "fast-4.16" "amd64" []).2 := by
    show ("fast-4.16", Except.error "error: status 500")
      ∈ (discoverLoop wBadSrc "amd64" [] ⟨4, [16, 0]⟩ "fast-" ["fast-4.16"] ["fast-4.16"] [] [] []).2
    rw [hrun]
    simp
  exact claim_C6_fetch_failure_aborts_with_context wBadSrc "fast-4.16" "amd64" []
    "fast-4.16" "error: status 500" hmem

/-! ### Malformed edges (claim C5) -/

/-- An edge pair the code treats as a structural error: fewer than two
entries, or an endpoint index outside `[0, len(nodes))`. -/
def malformedEdge (nodes : List Node) (e : List Int) : Prop :=
  match e with
  | [] => True
  | [_] => True
  | f :: t :: _ => f < 0 ∨ (nodes.length : Int) ≤ f ∨ t < 0 ∨ (nodes.length : Int) ≤ t

instance (nodes : List Node) (e : List Int) : Decidable (malformedEdge nodes e) := by
  unfold malformedEdge
  split <;> infer_instance

theorem processEdgesAux_bad_edge_no_ok (nodes : List Node) :
    ∀ (edges : List (List Int)) (t t' : VersionReleases) (e : List Int),
      e ∈ edges → malformedEdge nodes e →
      processEdgesAux nodes edges t = some (.ok t') → False := by
  intro edges
  induction edges with
  | nil => intro t t' e he _ _; simp at he
  | cons e0 rest ih =>
    intro t t' e he hbad hcontra
    rcases List.mem_cons.mp he with rfl | he2
    · cases e with
      | nil => simp [processEdgesAux] at hcontra
      | cons f et =>
        cases et with
        | nil => simp [processEdgesAux] at hcontra
        | cons t2 ett =>
          simp only [processEdgesAux] at hcontra
          have hbad2 : f < 0 ∨ (nodes.length : Int) ≤ f ∨ t2 < 0 ∨ (nodes.length : Int) ≤ t2 := hbad
          rw [if_pos hbad2] at hcontra
          simp at hcontra
    · cases e0 with
      | nil => simp [processEdgesAux] at hcontra
      | cons f et =>
        cases et with
        | nil => simp [processEdgesAux] at hcontra
        | cons t2 ett =>
          simp only [processEdgesAux] at hcontra
          by_cases hcond : f < 0 ∨ (nodes.length : Int) ≤ f ∨ t2 < 0 ∨ (nodes.length : Int) ≤ t2
          · rw [if_pos hcond] at hcontra
            simp at hcontra
          · rw [if_neg hcond] at hcontra
            split at hcontra
            · cases hcontra
            · split at hcontra
              · exact ih _ _ _ he2 hbad hcontra
              · split at hcontra
                · cases hcontra
                · split at hcontra
                  · exact ih _ _ _ he2 hbad hcontra
                  · exact ih _ _ _ he2 hbad hcontra

theorem processEdgesAux_no_panic (nodes : List Node)
    (hver : ∀ node ∈ nodes, node.version.isSome = true) :
    ∀ (edges : List (List Int)) (t : VersionReleases),
      processEdgesAux nodes edges t = none → False := by
  intro edges
  induction edges with
  | nil => intro t h; simp [processEdgesAux] at h
  | cons e0 rest ih =>
    intro t h
    cases e0 with
    | nil => simp [processEdgesAux] at h
    | cons f et =>
      cases et with
      | nil => simp [processEdgesAux] at h
      | cons t2 ett =>
        simp only [processEdgesAux] at h
        by_cases hcond : f < 0 ∨ (nodes.length : Int) ≤ f ∨ t2 < 0 ∨ (nodes.length : Int) ≤ t2
        · rw [if_pos hcond] at h
          cases h
        · rw [if_neg hcond] at h
          push_neg at hcond
          obtain ⟨hf0, hflt, ht0, htlt⟩ := hcond
          have hfn : f.toNat < nodes.length := by omega
          have htn : t2.toNat < nodes.length := by omega
          have hfver : (nodes.getD f.toNat defaultNode).version.isSome = true := by
            rw [List.getD_eq_getElem?_getD, List.getElem?_eq_getElem hfn]
            exact hver _ (List.getElem_mem hfn)
          have htver : (nodes.getD t2.toNat defaultNode).version.isSome = true := by
            rw [List.getD_eq_getElem?_getD, List.getElem?_eq_getElem htn]
            exact hver _ (List.getElem_mem htn)
          split at h
          · rename_i heqv
            rw [heqv] at hfver
            cases hfver
          · split at h
            · exact ih _ h
            · split at h
              · rename_i heqv2
                rw [heqv2] at htver
                cases htver
              · split at h
                · exact ih _ h
                · exact ih _ h

theorem discoverLoop_log_ok_bad_edge (src : GraphSource) (arch : String) (allowed : List String)
    (minV : Version) (pfx : String) :
    ∀ (queue qd proc : List String) (acc : ReleasesByChannel) (log : FetchLog)
      (ch : String) (g : Graph) (e : List Int),
      (ch, Except.ok g) ∈ (discoverLoop src arch allowed minV pfx queue qd proc acc log).2 →
      (ch, Except.ok g) ∉ log →
      e ∈ g.edges → malformedEdge g.nodes e →
      (∀ r, (discoverLoop src arch allowed minV pfx queue qd proc acc log).1 ≠ some (.ok r))
      ∧ ((∀ node ∈ g.nodes, node.version.isSome = true) →
          ∃ msg, (discoverLoop src arch allowed minV pfx queue qd proc acc log).1 =
            some (.error msg)) := by
  intro queue qd proc acc log
  induction queue, qd, proc, acc, log using discoverLoop.induct src arch allowed minV pfx with
  | case1 qd proc acc log =>
    intro ch g e hmem hnot _ _
    rw [discoverLoop_nil] at hmem
    exact absurd hmem hnot
  | case2 ch1 q qd proc acc log hc ih =>
    intro ch g e hmem hnot he hbad
    rw [discoverLoop_skip _ _ _ _ _ _ _ _ _ _ _ hc] at hmem ⊢
    exact ih ch g e hmem hnot he hbad
  | case3 ch1 q qd proc acc log hc e1 hf =>
    intro ch g e hmem hnot _ _
    have hc' : proc.contains ch1 = false := by
      cases hcc : proc.contains ch1
      · rfl
      · exact absurd hcc hc
    rw [discoverLoop_fetch_err _ _ _ _ _ _ _ _ _ _ _ _ hc' hf] at hmem
    simp only [List.mem_append, List.mem_singleton] at hmem
    rcases hmem with hmem | heq
    · exact absurd hmem hnot
    · injection heq with h1 h2
      cases h2
  | case4 ch1 q qd proc acc log hc g1 hf sc hpe =>
    intro ch g e hmem hnot he hbad
    have hc' : proc.contains ch1 = false := by
      cases hcc : proc.contains ch1
      · rfl
      · exact absurd hcc hc
    rw [discoverLoop_fetch_panic _ _ _ _ _ _ _ _ _ _ _ g1 _ _ _ hc' hf rfl hpe] at hmem ⊢
    simp only [List.mem_append, List.mem_singleton] at hmem
    rcases hmem with hmem | heq
    · exact absurd hmem hnot
    · injection heq with h1 h2
      injection h2 with h3
      subst h3
      refine ⟨?_, ?_⟩
      · intro r h
        cases h
      · intro hver
        exact absurd hpe (fun hp => processEdgesAux_no_panic g.nodes hver g.edges _ hp)
  | case5 ch1 q qd proc acc log hc g1 hf sc e1 hpe =>
    intro ch g e hmem hnot he hbad
    have hc' : proc.contains ch1 = false := by
      cases hcc : proc.contains ch1
      · rfl
      · exact absurd hcc hc
    rw [discoverLoop_fetch_edge_err _ _ _ _ _ _ _ _ _ _ _ g1 _ _ _ _ hc' hf rfl hpe] at hmem ⊢
    constructor
    · intro r h
      injection h with h2
      cases h2
    · exact fun _ => ⟨e1, rfl⟩
  | case6 ch1 q qd proc acc log hc g1 hf sc table2 hpe ih =>
    intro ch g e hmem hnot he hbad
    have hc' : proc.contains ch1 = false := by
      cases hcc : proc.contains ch1
      · rfl
      · exact absurd hcc hc
    rw [discoverLoop_fetch_ok _ _ _ _ _ _ _ _ _ _ _ g1 _ _ _ _ hc' hf rfl hpe] at hmem ⊢
    by_cases hpair : ((ch, Except.ok g) : String × GraphOutcome) = (ch1, Except.ok g1)
    · injection hpair with h1 h2
      injection h2 with h3
      subst h3
      exact absurd hpe (fun hp => processEdgesAux_bad_edge_no_ok g.nodes g.edges _ _ e he hbad hp)
    · refine ih ch g e hmem ?_ he hbad
      intro hin
      rcases List.mem_append.mp hin with hin | hin
      · exact hnot hin
      · simp only [List.mem_singleton] at hin
        exact hpair hin

/-- C5 (amended): if the traversal fetches a graph containing a malformed
edge (an index pair with fewer than two entries, or an endpoint outside
`[0, len(nodes))`), then `DiscoverReleases` never returns a
`ReleasesByChannel` — the edge is never silently skipped; and provided
every node of that graph carries a version (so the `part_004` revision's
nil-version dereference cannot fire first), the call returns an error. -/
theorem claim_C5_malformed_edge_aborts (src : GraphSource) (startChannel arch : String)
    (allowed : List String) (ch : String) (g : Graph) (e : List Int)
    (hmem : (ch, Except.ok g) ∈ (discoverReleasesLog src startChannel arch allowed).2)
    (hedge : e ∈ g.edges) (hbad : malformedEdge g.nodes e) :
    (∀ r, DiscoverReleases src startChannel arch allowed ≠ some (.ok r))
    ∧ ((∀ node ∈ g.nodes, node.version.isSome = true) →
        ∃ msg, DiscoverReleases src startChannel arch allowed = some (.error msg)) := by
  cases hsp : splitChannel startChannel with
  | error e1 =>
    have hred : discoverReleasesLog src startChannel arch allowed = (some (.error e1), []) := by
      simp only [discoverReleasesLog, hsp]
    rw [hred] at hmem
    simp at hmem
  | ok p =>
    obtain ⟨pfx, tok⟩ := p
    cases hpv : parseVersion tok with
    | none =>
      have hred : discoverReleasesLog src startChannel arch allowed
          = (some (.error ("invalid version: " ++ tok)), []) := by
        simp only [discoverReleasesLog, hsp, hpv]
      rw [hred] at hmem
      simp at hmem
    | some m =>
      have hlog : discoverReleasesLog src startChannel arch allowed
          = discoverLoop src arch allowed m pfx [startChannel] [startChannel] [] [] [] := by
        simp only [discoverReleasesLog, hsp, hpv]
      rw [hlog] at hmem
      have h := discoverLoop_log_ok_bad_edge src arch allowed m pfx
        [startChannel] [startChannel] [] [] [] ch g e hmem (by simp) hedge hbad
      constructor
      · intro r
        show (discoverReleasesLog src startChannel arch allowed).1 ≠ _
        rw [hlog]
        exact h.1 r
      · intro hver
        obtain ⟨msg, hmsg⟩ := h.2 hver
        refine ⟨msg, ?_⟩
        show (discoverReleasesLog src startChannel arch allowed).1 = _
        rw [hlog]
        exact hmsg

/-- Node without a version (`"version": null` in the JSON). -/
def wNilNode : Node := { version := none, payload := "pn", metadata := [] }

/-- Graph whose first edge dereferences the absent version (a panic in the
`part_004` revision) and whose second edge is malformed. -/
def wPanicGraph : Graph :=
  { nodes := [wNilNode], edges := [[0, 0], [5, 5]], conditionalEdges := [] }

/-- Source serving `wPanicGraph` for the start channel. -/
def wPanicSrc : GraphSource := [("stable-4.16", .ok wPanicGraph)]

/-- C5 counterexample: the fetched graph contains the malformed edge
`[5, 5]`, yet the call does not return an error — the `part_004` revision
first dereferences the nil version of edge `[0, 0]` and crashes (modelled
by `none`), so no error value and no result are ever returned. -/
theorem claim_C5_counterexample :
    ("stable-4.16", Except.ok wPanicGraph)
        ∈ (discoverReleasesLog wPanicSrc "stable-4.16" "amd64" []).2
    ∧ [5, 5] ∈ wPanicGraph.edges
    ∧ malformedEdge wPanicGraph.nodes [5, 5]
    ∧ DiscoverReleases wPanicSrc "stable-4.16" "amd64" [] = none
    ∧ ∀ x, DiscoverReleases wPanicSrc "stable-4.16" "amd64" [] ≠ some x := by
  have hrun := discoverLoopF_sound wPanicSrc "amd64" [] ⟨4, [16, 0]⟩ "stable-" 20
    ["stable-4.16"] ["stable-4.16"] [] [] []
    (none, [("stable-4.16", .ok wPanicGraph)]) rfl
  have hlogeq : (discoverReleasesLog wPanicSrc "stable-4.16" "amd64" []).2
      = [("stable-4.16", .ok wPanicGraph)] := by
    show (discoverLoop wPanicSrc "amd64" [] ⟨4, [16, 0]⟩ "stable-"
      ["stable-4.16"] ["stable-4.16"] [] [] []).2 = _
    rw [hrun]
  have hreseq : DiscoverReleases wPanicSrc "stable-4.16" "amd64" [] = none := by
    show (discoverLoop wPanicSrc "amd64" [] ⟨4, [16, 0]⟩ "stable-"
      ["stable-4.16"] ["stable-4.16"] [] [] []).1 = _
    rw [hrun]
  refine ⟨by rw [hlogeq]; simp, by simp [wPanicGraph], by decide, hreseq, ?_⟩
  intro x
  rw [hreseq]
  simp

/-- Graph with a well-formed node but an out-of-range edge target. -/
def wBadEdgeGraph : Graph := { nodes := [wNode1], edges := [[0, 9]], conditionalEdges := [] }

/-- Source serving `wBadEdgeGraph`. -/
def wBadEdgeSrc : GraphSource := [("stable-4.16", .ok wBadEdgeGraph)]

/-- C5 witness: with all node versions present, the malformed edge makes
the whole call return an error and no result. -/
theorem claim_C5_witness :
    (∀ r, DiscoverReleases wBadEdgeSrc "stable-4.16" "amd64" [] ≠ some (.ok r))
    ∧ ∃ msg, DiscoverReleases wBadEdgeSrc "stable-4.16" "amd64" [] = some (.error msg) := by
  have hrun := discoverLoopF_sound wBadEdgeSrc "amd64" [] ⟨4, [16, 0]⟩ "stable-" 20
    ["stable-4.16"] ["stable-4.16"] [] [] []
    (some (.error "invalid edge indices"), [("stable-4.16", .ok wBadEdgeGraph)]) rfl
  have hmem : ("stable-4.16", Except.ok wBadEdgeGraph)
      ∈ (discoverReleasesLog wBadEdgeSrc "stable-4.16" "amd64" []).2 := by
    show ("stable-4.16", Except.ok wBadEdgeGraph)
      ∈ (discoverLoop wBadEdgeSrc "amd64" [] ⟨4, [16, 0]⟩ "stable-"
          ["stable-4.16"] ["stable-4.16"] [] [] []).2
    rw [hrun]
    simp
  have h := claim_C5_malformed_edge_aborts wBadEdgeSrc "stable-4.16" "amd64" []
    "stable-4.16" wBadEdgeGraph [0, 9] hmem (by simp [wBadEdgeGraph]) (by decide)
  exact ⟨h.1, h.2 (by decide)⟩

/-- Node whose metadata lists `stable-borked` — a candidate with the right
prefix whose trailing token does not parse — next to a valid candidate. -/
def wBadCandNode : Node :=
  { version := some ⟨4, [16, 1]⟩, payload := "p",
    metadata := [(channelsMetadataKey, "stable-borked,stable-4.17")] }

/-- Graph containing `wBadCandNode`. -/
def wBadCandGraph : Graph := { nodes := [wBadCandNode], edges := [], conditionalEdges := [] }

/-- Source used by the C9 witness. -/
def wBadCandSrc : GraphSource :=
  [("stable-4.16", .ok wBadCandGraph), ("stable-4.17", .ok wGraph2)]

/-- Expected discovery result over `wBadCandSrc`. -/
def wBadCandRes : ReleasesByChannel :=
  [ ("stable-4.16",
      [("4.16.1", { version := "4.16.1", arch := "amd64", payload := "p" })]),
    ("stable-4.17", [("4.17.5", wRel3)]) ]

/-- C9 witness: the valid candidate is discovered (via the
characterization), the malformed one is skipped, and the traversal over a
source containing the malformed candidate still returns normally. -/
theorem claim_C9_witness :
    "stable-4.17" ∈ discoverNewChannels wBadCandNode "stable-" ⟨4, [16, 0]⟩
    ∧ "stable-borked" ∉ discoverNewChannels wBadCandNode "stable-" ⟨4, [16, 0]⟩
    ∧ DiscoverReleases wBadCandSrc "stable-4.16" "amd64" [] = some (.ok wBadCandRes) := by
  refine ⟨?_, by decide, ?_⟩
  · exact (claim_C9_malformed_candidates_skipped wBadCandNode "stable-" ⟨4, [16, 0]⟩
      "stable-4.17").mpr
      ⟨"stable-borked,stable-4.17", rfl, by decide, by decide, ⟨4, [17, 0]⟩, by decide, by decide⟩
  · show (discoverReleasesLog wBadCandSrc "stable-4.16" "amd64" []).1 = _
    have h := discoverLoopF_sound wBadCandSrc "amd64" [] ⟨4, [16, 0]⟩ "stable-" 20
      ["stable-4.16"] ["stable-4.16"] [] [] []
      (some (.ok wBadCandRes),
        [("stable-4.16", .ok wBadCandGraph), ("stable-4.17", .ok wGraph2)]) rfl
    show (discoverLoop wBadCandSrc "amd64" [] ⟨4, [16, 0]⟩ "stable-"
      ["stable-4.16"] ["stable-4.16"] [] [] []).1 = _
    rw [h]

/-! ### Absent versions on edge endpoints (claim C10) -/

/-- An edge pair with at least two indices one of whose endpoint nodes has
no version. -/
def nilEndpoint (nodes : List Node) (e : List Int) : Prop :=
  match e with
  | f :: t :: _ =>
    (nodes.getD f.toNat defaultNode).version = none ∨
      (nodes.getD t.toNat defaultNode).version = none
  | _ => False

instance (nodes : List Node) (e : List Int) : Decidable (nilEndpoint nodes e) := by
  unfold nilEndpoint
  split <;> infer_instance

/-- Graph whose single, well-formed edge touches a node without a version:
the `part_004` revision dereferences it and panics. -/
def wC10Graph : Graph := { nodes := [wNilNode], edges := [[0, 0]], conditionalEdges := [] }

/-- C10 counterexample: on a graph whose edges are all well-formed, the
`part_004` revision's `processEdges` does not skip the absent-version
endpoint — it crashes (modelled by `none`), so that revision's
unconditional-edge resolution is not total. -/
theorem claim_C10_counterexample :
    (∀ e ∈ wC10Graph.edges, ¬ malformedEdge wC10Graph.nodes e)
    ∧ processEdges wC10Graph [] = none := by
  constructor
  · decide
  · rfl

theorem processEdgesMinCheckAux_total (nodes : List Node) (minV : Version) :
    ∀ (edges : List (List Int)) (t : VersionReleases),
      (∀ e ∈ edges, ¬ malformedEdge nodes e) →
      (∃ t', processEdgesMinCheckAux nodes minV edges t = .ok t')
      ∧ ((∀ e ∈ edges, nilEndpoint nodes e) →
          processEdgesMinCheckAux nodes minV edges t = .ok t) := by
  intro edges
  induction edges with
  | nil =>
    intro t _
    exact ⟨⟨t, rfl⟩, fun _ => rfl⟩
  | cons e0 rest ih =>
    intro t hwf
    have hwf0 := hwf e0 (by simp)
    have hwfr : ∀ e ∈ rest, ¬ malformedEdge nodes e := fun e he => hwf e (by simp [he])
    cases e0 with
    | nil => exact absurd trivial hwf0
    | cons f et =>
      cases et with
      | nil => exact absurd trivial hwf0
      | cons t2 ett =>
        have hcond : ¬ (f < 0 ∨ (nodes.length : Int) ≤ f ∨ t2 < 0 ∨ (nodes.length : Int) ≤ t2) :=
          hwf0
        constructor
        · simp only [processEdgesMinCheckAux]
          rw [if_neg hcond]
          split
          · split
            · split
              · exact (ih t hwfr).1
              · split
                · exact (ih t hwfr).1
                · exact (ih _ hwfr).1
            · exact (ih t hwfr).1
          · exact (ih t hwfr).1
        · intro hnil
          have hnil0 : nilEndpoint nodes (f :: t2 :: ett) := hnil _ (by simp)
          have hbfalse : (isValidVersion (nodes.getD f.toNat defaultNode).version minV &&
              isValidVersion (nodes.getD t2.toNat defaultNode).version minV) = false := by
            rcases hnil0 with hnf | hnt
            · rw [hnf]
              rfl
            · rw [hnt]
              simp [isValidVersion]
          simp only [processEdgesMinCheckAux]
          rw [if_neg hcond, hbfalse]
          simp only [Bool.false_eq_true, if_false]
          exact (ih t hwfr).2 (fun e he => hnil e (by simp [he]))

/-- C10 (amended): for the `cincinnati-client/cincinnati_client.go`
revision, whose `processEdges` re-checks `isValidVersion` on both
endpoints, unconditional-edge resolution over well-formed edges is total —
it returns a table rather than an error — and edges whose endpoints lack a
version contribute nothing: if every edge has an absent-version endpoint
the table is returned unchanged.  The `part_004` revision instead
dereferences the absent version and crashes (see the counterexample). -/
theorem claim_C10_min_check_skips_nil_endpoints (g : Graph) (minV : Version)
    (t : VersionReleases) (hwf : ∀ e ∈ g.edges, ¬ malformedEdge g.nodes e) :
    (∃ t', processEdgesMinCheck g minV t = .ok t')
    ∧ ((∀ e ∈ g.edges, nilEndpoint g.nodes e) → processEdgesMinCheck g minV t = .ok t) :=
  processEdgesMinCheckAux_total g.nodes minV g.edges t hwf

/-- C10 witness: the min-check revision on the very graph that crashes the
`part_004` revision returns its input table unchanged. -/
theorem claim_C10_witness :
    processEdgesMinCheck wC10Graph ⟨4, [16, 0]⟩ [] = .ok [] := by
  have h := claim_C10_min_check_skips_nil_endpoints wC10Graph ⟨4, [16, 0]⟩ [] (by decide)
  exact h.2 (by decide)

/-! ### Order lemmas for the version comparator -/

theorem cmpSegs_allZero_left : ∀ (b c : List Nat), b.all (fun x => x == 0) = true →
    cmpSegs b c = cmpSegs [] c := by
  intro b
  induction b with
  | nil => intro c _; rfl
  | cons x bs ih =>
    intro c hall
    simp only [List.all_cons, Bool.and_eq_true, beq_iff_eq] at hall
    obtain ⟨rfl, hall⟩ := hall
    match c with
    | [] =>
      simp only [cmpSegs, if_pos rfl]
      rw [ih [] (by simpa using hall)]
      rfl
    | y :: ys =>
      simp only [cmpSegs]
      by_cases hy : y = 0
      · subst hy
        simp only [Nat.lt_irrefl, if_neg (by omega : ¬ (0:Nat) < 0)]
        rw [ih ys (by simpa using hall)]
        simp [cmpSegs]
      · have h2 : 0 < y := by omega
        simp [h2, hy]

theorem cmpSegs_allZero_right (b c : List Nat) (h : c.all (fun x => x == 0) = true) :
    cmpSegs b c = cmpSegs b [] := by
  rw [cmpSegs_swap c b, cmpSegs_allZero_left c b h, ← cmpSegs_swap [] b]

theorem cmpSegs_nil_right_ne_lt (a : List Nat) : cmpSegs a [] ≠ .lt := by
  rw [cmpSegs_swap]
  simp only [cmpSegs]
  split <;> simp [Ordering.swap]

theorem cmpSegs_eq_left (a : List Nat) : ∀ (b : List Nat), cmpSegs a b = .eq →
    ∀ c, cmpSegs b c = cmpSegs a c := by
  induction a with
  | nil =>
    intro b h c
    have hall : b.all (fun x => x == 0) = true := by
      cases hba : b.all (fun x => x == 0)
      · simp only [cmpSegs, hba] at h
        cases h
      · rfl
    rw [cmpSegs_allZero_left b c hall]
  | cons x as ih =>
    intro b h c
    match b with
    | [] =>
      have h2 : cmpSegs [] (x :: as) = .eq := by
        rw [cmpSegs_swap, h]
        rfl
      have hall : (x :: as).all (fun z => z == 0) = true := by
        cases hba : (x :: as).all (fun z => z == 0)
        · simp only [cmpSegs, hba] at h2
          cases h2
        · rfl
      rw [cmpSegs_allZero_left (x :: as) c hall]
    | y :: bs =>
      by_cases hxy : x < y
      · simp [cmpSegs, hxy] at h
      · by_cases hyx : y < x
        · simp [cmpSegs, hxy, hyx] at h
        · have hx : x = y := by omega
          subst hx
          have htl : cmpSegs as bs = .eq := by simpa [cmpSegs, hxy] using h
          match c with
          | [] =>
            simp only [cmpSegs]
            rw [ih bs htl []]
          | z :: cs =>
            simp only [cmpSegs]
            rw [ih bs htl cs]

theorem cmpSegs_lt_trans (a : List Nat) : ∀ (b c : List Nat),
    cmpSegs a b = .lt → cmpSegs b c = .lt → cmpSegs a c = .lt := by
  induction a with
  | nil =>
    intro b c hab hbc
    simp only [cmpSegs]
    cases hcz : c.all (fun x => x == 0)
    · simp
    · exfalso
      rw [cmpSegs_allZero_right b c hcz] at hbc
      exact cmpSegs_nil_right_ne_lt b hbc
  | cons x as ih =>
    intro b c hab hbc
    match b with
    | [] => exact absurd hab (cmpSegs_nil_right_ne_lt _)
    | y :: bs =>
      match c with
      | [] => exact absurd hbc (cmpSegs_nil_right_ne_lt _)
      | z :: cs =>
        by_cases hxy : x < y
        · by_cases hyz : y < z
          · have hxz : x < z := by omega
            simp [cmpSegs, hxz]
          · by_cases hzy : z < y
            · simp [cmpSegs, hyz, hzy] at hbc
            · have hyz2 : y = z := by omega
              subst hyz2
              simp [cmpSegs, hxy]
        · by_cases hyx : y < x
          · simp [cmpSegs, hxy, hyx] at hab
          · have hxy2 : x = y := by omega
            subst hxy2
            have habtl : cmpSegs as bs = .lt := by
              simpa [cmpSegs, Nat.lt_irrefl] using hab
            by_cases hxz : x < z
            · simp [cmpSegs, hxz]
            · by_cases hzx : z < x
              · simp [cmpSegs, hxz, hzx] at hbc
              · have hxz2 : x = z := by omega
                subst hxz2
                have hbctl : cmpSegs bs cs = .lt := by
                  simpa [cmpSegs, Nat.lt_irrefl] using hbc
                simpa [cmpSegs, Nat.lt_irrefl] using ih bs cs habtl hbctl

theorem verCompare_eq_left {u v : Version} (h : verCompare u v = .eq) :
    ∀ w, verCompare v w = verCompare u w :=
  fun w => cmpSegs_eq_left u.segments v.segments h w.segments

theorem verCompare_lt_trans {u v w : Version} (h1 : verCompare u v = .lt)
    (h2 : verCompare v w = .lt) : verCompare u w = .lt :=
  cmpSegs_lt_trans u.segments v.segments w.segments h1 h2

theorem verCompare_swap (u v : Version) : verCompare v u = (verCompare u v).swap :=
  cmpSegs_swap u.segments v.segments

theorem verStrLE_total (a b : String) : verStrLE a b = true ∨ verStrLE b a = true := by
  cases hpa : parseVersion a with
  | none => left; simp [verStrLE, hpa]
  | some va =>
    cases hpb : parseVersion b with
    | none => right; simp [verStrLE, hpb]
    | some vb =>
      cases hc : verCompare va vb with
      | lt => left; simp [verStrLE, hpa, hpb, hc]
      | eq => left; simp [verStrLE, hpa, hpb, hc]
      | gt =>
        right
        have hswap : verCompare vb va = .lt := by
          rw [verCompare_swap, hc]
          rfl
        simp [verStrLE, hpa, hpb, hswap]

theorem verStrLE_trans {a b c : String} (hab : verStrLE a b = true)
    (hbc : verStrLE b c = true) : verStrLE a c = true := by
  cases hpa : parseVersion a with
  | none => simp [verStrLE, hpa]
  | some va =>
    cases hpb : parseVersion b with
    | none => simp [verStrLE, hpa, hpb] at hab
    | some vb =>
      cases hpc : parseVersion c with
      | none => simp [verStrLE, hpb, hpc] at hbc
      | some vc =>
        simp only [verStrLE, hpa, hpb, hpc] at hab hbc ⊢
        cases h1 : verCompare va vb with
        | gt => rw [h1] at hab; cases hab
        | eq =>
          have := verCompare_eq_left h1 vc
          rw [← this]
          exact hbc
        | lt =>
          cases h2 : verCompare vb vc with
          | gt => rw [h2] at hbc; cases hbc
          | eq =>
            have h3 : verCompare vc vb = .eq := by
              rw [verCompare_swap, h2]
              rfl
            have h4 := verCompare_eq_left h3 va
            have h5 : verCompare va vc = (verCompare vc va).swap := by
              rw [← verCompare_swap]
            rw [h5, ← h4, ← verCompare_swap, h1]
          | lt =>
            rw [verCompare_lt_trans h1 h2]

/-! ### Sorting and merging lemmas -/

theorem insertSorted_perm (x : String) : ∀ (l : List String),
    List.Perm (insertSorted x l) (x :: l) := by
  intro l
  induction l with
  | nil => exact List.Perm.refl _
  | cons y ys ih =>
    simp only [insertSorted]
    by_cases h : verStrLE x y = true
    · rw [if_pos h]
    · rw [if_neg h]
      exact (ih.cons y).trans (List.Perm.swap x y ys)

theorem sortByVer_perm : ∀ (l : List String), List.Perm (sortByVer l) l := by
  intro l
  induction l with
  | nil => exact List.Perm.refl _
  | cons x xs ih =>
    show List.Perm (insertSorted x (sortByVer xs)) _
    exact (insertSorted_perm x (sortByVer xs)).trans (ih.cons x)

theorem sortByVer_mem (l : List String) (x : String) : x ∈ sortByVer l ↔ x ∈ l :=
  (sortByVer_perm l).mem_iff

theorem sortByVer_nodup {l : List String} (h : l.Nodup) : (sortByVer l).Nodup :=
  (sortByVer_perm l).nodup_iff.mpr h

theorem insertSorted_pairwise (x : String) : ∀ (l : List String),
    List.Pairwise (fun a b => verStrLE a b = true) l →
    List.Pairwise (fun a b => verStrLE a b = true) (insertSorted x l) := by
  intro l
  induction l with
  | nil => intro _; simp [insertSorted]
  | cons y ys ih =>
    intro hp
    rw [List.pairwise_cons] at hp
    obtain ⟨hy, hys⟩ := hp
    simp only [insertSorted]
    by_cases h : verStrLE x y = true
    · rw [if_pos h, List.pairwise_cons]
      constructor
      · intro z hz
        rcases List.mem_cons.mp hz with rfl | hz2
        · exact h
        · exact verStrLE_trans h (hy z hz2)
      · rw [List.pairwise_cons]
        exact ⟨hy, hys⟩
    · rw [if_neg h, List.pairwise_cons]
      constructor
      · intro z hz
        have hz2 := (insertSorted_perm x ys).mem_iff.mp hz
        rcases List.mem_cons.mp hz2 with rfl | hz3
        · rcases verStrLE_total z y with h2 | h2
          · exact absurd h2 h
          · exact h2
        · exact hy z hz3
      · exact ih hys

theorem sortByVer_pairwise : ∀ (l : List String),
    List.Pairwise (fun a b => verStrLE a b = true) (sortByVer l) := by
  intro l
  induction l with
  | nil => simp [sortByVer]
  | cons x xs ih => exact insertSorted_pairwise x _ ih

theorem foldlDedup_mem : ∀ (b a : List String) (x : String),
    (x ∈ b.foldl (fun acc up => if acc.contains up then acc else acc ++ [up]) a) ↔
      x ∈ a ∨ x ∈ b := by
  intro b
  induction b with
  | nil => intro a x; simp
  | cons u bs ih =>
    intro a x
    simp only [List.foldl_cons]
    by_cases hu : a.contains u = true
    · rw [if_pos hu, ih]
      constructor
      · rintro (h | h)
        · exact Or.inl h
        · exact Or.inr (by simp [h])
      · rintro (h | h)
        · exact Or.inl h
        · rcases List.mem_cons.mp h with rfl | h2
          · exact Or.inl (by simpa using hu)
          · exact Or.inr h2
    · rw [if_neg hu, ih]
      simp only [List.mem_append, List.mem_singleton, List.mem_cons]
      tauto

theorem foldlDedup_nodup : ∀ (b a : List String), a.Nodup →
    (b.foldl (fun acc up => if acc.contains up then acc else acc ++ [up]) a).Nodup := by
  intro b
  induction b with
  | nil => intro a h; simpa
  | cons u bs ih =>
    intro a h
    simp only [List.foldl_cons]
    by_cases hu : a.contains u = true
    · rw [if_pos hu]
      exact ih a h
    · rw [if_neg hu]
      refine ih _ ?_
      rw [List.nodup_append]
      exact ⟨h, List.nodup_singleton u, by simpa using hu⟩

theorem mergeUpgrades_mem (e i : Release) (x : String) :
    (x ∈ (mergeUpgrades e i).availableUpgrades) ↔
      x ∈ e.availableUpgrades ∨ x ∈ i.availableUpgrades :=
  foldlDedup_mem i.availableUpgrades e.availableUpgrades x

theorem mergeUpgrades_nodup {e : Release} (i : Release) (h : e.availableUpgrades.Nodup) :
    (mergeUpgrades e i).availableUpgrades.Nodup :=
  foldlDedup_nodup i.availableUpgrades e.availableUpgrades h

theorem firstBadUpgrade_none_iff : ∀ (l : List String),
    firstBadUpgrade l = none ↔ ∀ x ∈ l, (parseVersion x).isSome = true := by
  intro l
  induction l with
  | nil => simp [firstBadUpgrade]
  | cons u rest ih =>
    simp only [firstBadUpgrade]
    cases hp : parseVersion u with
    | none =>
      simp only
      constructor
      · intro h; cases h
      · intro h
        have := h u (by simp)
        rw [hp] at this
        cases this
    | some v =>
      simp only
      rw [ih]
      constructor
      · intro h x hx
        rcases List.mem_cons.mp hx with rfl | hx2
        · rw [hp]; rfl
        · exact h x hx2
      · intro h x hx
        exact h x (by simp [hx])

theorem firstBadUpgrade_some : ∀ (l : List String) (u : String),
    firstBadUpgrade l = some u → u ∈ l ∧ parseVersion u = none := by
  intro l
  induction l with
  | nil => intro u h; cases h
  | cons x rest ih =>
    intro u h
    simp only [firstBadUpgrade] at h
    cases hp : parseVersion x with
    | none =>
      rw [hp] at h
      simp only at h
      injection h with h2
      subst h2
      exact ⟨by simp, hp⟩
    | some v =>
      rw [hp] at h
      simp only at h
      obtain ⟨hu, hbad⟩ := ih u h
      exact ⟨by simp [hu], hbad⟩

theorem sortAvailableUpgrades_ok_of (r : Release)
    (h : ∀ x ∈ r.availableUpgrades, (parseVersion x).isSome = true) :
    r.SortAvailableUpgrades =
      .ok { r with availableUpgrades := sortByVer r.availableUpgrades } := by
  unfold Release.SortAvailableUpgrades
  rw [(firstBadUpgrade_none_iff _).mpr h]

theorem sortAvailableUpgrades_ok {r r' : Release} (h : r.SortAvailableUpgrades = .ok r') :
    r'.version = r.version ∧ r'.arch = r.arch ∧ r'.payload = r.payload ∧
    r'.availableUpgrades = sortByVer r.availableUpgrades ∧
    ∀ x ∈ r.availableUpgrades, (parseVersion x).isSome = true := by
  unfold Release.SortAvailableUpgrades at h
  cases hfb : firstBadUpgrade r.availableUpgrades with
  | some u => rw [hfb] at h; cases h
  | none =>
    rw [hfb] at h
    injection h with h2
    rw [← h2]
    refine ⟨rfl, rfl, rfl, rfl, ?_⟩
    exact (firstBadUpgrade_none_iff _).mp hfb

theorem sortAvailableUpgrades_error_of (r : Release) (x : String)
    (hx : x ∈ r.availableUpgrades) (hbad : parseVersion x = none) :
    ∃ e, r.SortAvailableUpgrades = .error e := by
  unfold Release.SortAvailableUpgrades
  cases hfb : firstBadUpgrade r.availableUpgrades with
  | some u => exact ⟨_, rfl⟩
  | none =>
    have := (firstBadUpgrade_none_iff _).mp hfb x hx
    rw [hbad] at this
    cases this

/-! ### No duplicates in AvailableUpgrades; sorted after aggregation (claim C4) -/

/-- Every release of the table carries a duplicate-free upgrade list. -/
def nodupTable (t : VersionReleases) : Prop := ∀ p ∈ t, p.2.availableUpgrades.Nodup

/-- Every release of every channel's table carries a duplicate-free upgrade
list. -/
def nodupRBC (acc : ReleasesByChannel) : Prop := ∀ p ∈ acc, nodupTable p.2

theorem nodupTable_insertA {t : VersionReleases} {k : String} {v : Release}
    (ht : nodupTable t) (hv : v.availableUpgrades.Nodup) : nodupTable (insertA t k v) := by
  rintro ⟨pk, pv⟩ hp
  rcases mem_insertA hp with h | ⟨h1, h2⟩
  · exact ht _ h
  · subst h2
    exact hv

theorem nodup_append_singleton {l : List String} {x : String} (hl : l.Nodup)
    (hx : ¬ l.contains x = true) : (l ++ [x]).Nodup := by
  rw [List.nodup_append]
  exact ⟨hl, List.nodup_singleton x, by simpa using hx⟩

theorem createRelease_nodup {node : Node} {arch : String} {minV : Version} {r : Release}
    (h : createRelease node arch minV = some r) : r.availableUpgrades.Nodup := by
  obtain ⟨v, _, _, rfl⟩ := createRelease_some h
  exact List.nodup_nil

theorem scanNodes_nodupTable (arch : String) (minV : Version) (pfx : String) :
    ∀ (nodes : List Node) (t : VersionReleases) (q qd proc : List String),
      nodupTable t → nodupTable (scanNodes arch minV pfx nodes t q qd proc).1 := by
  intro nodes
  induction nodes with
  | nil => intro t q qd proc ht; simpa [scanNodes] using ht
  | cons node rest ih =>
    intro t q qd proc ht
    simp only [scanNodes]
    cases hcr : createRelease node arch minV with
    | none => simpa [hcr] using ih _ _ _ _ ht
    | some r => simpa [hcr] using ih _ _ _ _ (nodupTable_insertA ht (createRelease_nodup hcr))

theorem processEdgesAux_nodupTable (nodes : List Node) :
    ∀ (edges : List (List Int)) (t t' : VersionReleases),
      processEdgesAux nodes edges t = some (.ok t') → nodupTable t → nodupTable t' := by
  intro edges
  induction edges with
  | nil =>
    intro t t' h ht
    simp only [processEdgesAux] at h
    injection h with h2
    injection h2 with h3
    rw [← h3]
    exact ht
  | cons e rest ih =>
    intro t t' h ht
    simp only [processEdgesAux] at h
    split at h
    · simp at h
    · simp at h
    · split at h
      · simp at h
      · split at h
        · simp at h
        · split at h
          · exact ih _ _ h ht
          · split at h
            · simp at h
            · split at h
              · exact ih _ _ h ht
              · refine ih _ _ h (nodupTable_insertA ht ?_)
                exact nodup_append_singleton
                  (ht _ (lookupA_mem (by assumption))) (by assumption)

theorem condEdgeApply_nodupTable :
    ∀ (edges : List ConditionalEdge) (t : VersionReleases),
      nodupTable t → nodupTable (condEdgeApply edges t) := by
  intro edges
  induction edges with
  | nil => intro t ht; simpa [condEdgeApply] using ht
  | cons e rest ih =>
    intro t ht
    rw [condEdgeApply]
    split
    · exact ih _ ht
    · rename_i r hlook
      split
      · exact ih _ ht
      · refine ih _ (nodupTable_insertA ht ?_)
        exact nodup_append_singleton (ht _ (lookupA_mem hlook)) (by assumption)

theorem processConditionalEdges_nodupTable :
    ∀ (groups : List ConditionalEdges) (allowed : List String) (t : VersionReleases),
      nodupTable t → nodupTable (processConditionalEdges groups allowed t) := by
  intro groups
  induction groups with
  | nil => intro allowed t ht; simpa [processConditionalEdges] using ht
  | cons g rest ih =>
    intro allowed t ht
    rw [processConditionalEdges]
    split
    · exact ih _ _ (condEdgeApply_nodupTable _ _ ht)
    · exact ih _ _ ht

theorem discoverLoop_nodupRBC (src : GraphSource) (arch : String) (allowed : List String)
    (minV : Version) (pfx : String) :
    ∀ (queue qd proc : List String) (acc : ReleasesByChannel) (log : FetchLog),
      nodupRBC acc →
      ∀ (res : ReleasesByChannel) (lg : FetchLog),
        discoverLoop src arch allowed minV pfx queue qd proc acc log = (some (.ok res), lg) →
        nodupRBC res := by
  intro queue qd proc acc log
  induction queue, qd, proc, acc, log using discoverLoop.induct src arch allowed minV pfx with
  | case1 qd proc acc log =>
    intro hacc res lg h
    rw [discoverLoop_nil] at h
    injection h with h1 h2
    injection h1 with h3
    injection h3 with h4
    rw [← h4]
    exact hacc
  | case2 ch q qd proc acc log hc ih =>
    intro hacc res lg h
    rw [discoverLoop_skip _ _ _ _ _ _ _ _ _ _ _ hc] at h
    exact ih hacc res lg h
  | case3 ch q qd proc acc log hc e hf =>
    intro hacc res lg h
    have hc' : proc.contains ch = false := by
      cases hcc : proc.contains ch
      · rfl
      · exact absurd hcc hc
    rw [discoverLoop_fetch_err _ _ _ _ _ _ _ _ _ _ _ _ hc' hf] at h
    injection h with h1 h2
    injection h1 with h3
    cases h3
  | case4 ch q qd proc acc log hc g hf sc hpe =>
    intro hacc res lg h
    have hc' : proc.contains ch = false := by
      cases hcc : proc.contains ch
      · rfl
      · exact absurd hcc hc
    rw [discoverLoop_fetch_panic _ _ _ _ _ _ _ _ _ _ _ g _ _ _ hc' hf rfl hpe] at h
    injection h with h1 h2
    cases h1
  | case5 ch q qd proc acc log hc g hf sc e hpe =>
    intro hacc res lg h
    have hc' : proc.contains ch = false := by
      cases hcc : proc.contains ch
      · rfl
      · exact absurd hcc hc
    rw [discoverLoop_fetch_edge_err _ _ _ _ _ _ _ _ _ _ _ g _ _ _ _ hc' hf rfl hpe] at h
    injection h with h1 h2
    injection h1 with h3
    cases h3
  | case6 ch q qd proc acc log hc g hf sc table2 hpe ih =>
    intro hacc res lg h
    have hc' : proc.contains ch = false := by
      cases hcc : proc.contains ch
      · rfl
      · exact absurd hcc hc
    rw [discoverLoop_fetch_ok _ _ _ _ _ _ _ _ _ _ _ g _ _ _ _ hc' hf rfl hpe] at h
    have htab0 : nodupTable ((lookupA acc ch).getD []) := by
      cases hl : lookupA acc ch with
      | none => rintro p hp; simp [lookupA] at hp
      | some t0 =>
        show nodupTable ((some t0).getD [])
        exact hacc _ (lookupA_mem hl)
    have ht1 := scanNodes_nodupTable arch minV pfx g.nodes ((lookupA acc ch).getD [])
      q qd (ch :: proc) htab0
    have ht2 : nodupTable table2 := processEdgesAux_nodupTable g.nodes _ _ _ hpe ht1
    have ht3 := processConditionalEdges_nodupTable g.conditionalEdges allowed table2 ht2
    refine ih ?_ res lg h
    rintro ⟨pk, pv⟩ hp
    rcases mem_insertA hp with hmem | ⟨h1, h2⟩
    · exact hacc _ hmem
    · subst h2
      exact ht3

/-- A successful discovery run yields duplicate-free upgrade lists. -/
theorem discoverReleases_ok_nodupRBC {src : GraphSource} {startChannel arch : String}
    {allowed : List String} {res : ReleasesByChannel}
    (hok : DiscoverReleases src startChannel arch allowed = some (.ok res)) :
    nodupRBC res := by
  have h1 : (discoverReleasesLog src startChannel arch allowed).1 = some (.ok res) := hok
  cases hsp : splitChannel startChannel with
  | error e =>
    simp [discoverReleasesLog, hsp] at h1
  | ok p =>
    obtain ⟨pfx, verStr⟩ := p
    simp only [discoverReleasesLog, hsp] at h1
    cases hpv : parseVersion verStr with
    | none => simp [hpv] at h1
    | some minV =>
      simp only [hpv] at h1
      have hpair : discoverLoop src arch allowed minV pfx
          [startChannel] [startChannel] [] [] [] =
          (some (.ok res),
            (discoverLoop src arch allowed minV pfx [startChannel] [startChannel] [] [] []).2) := by
        rw [← h1]
      exact discoverLoop_nodupRBC src arch allowed minV pfx [startChannel] [startChannel] [] [] []
        (by rintro p hp; simp at hp) res _ hpair

/-- Every release of the table is duplicate-free and sorted ascending. -/
def sortedTable (t : VersionReleases) : Prop :=
  ∀ p ∈ t, p.2.availableUpgrades.Nodup ∧
    List.Pairwise (fun a b => verStrLE a b = true) p.2.availableUpgrades

/-- Every release of every group's table is duplicate-free and sorted. -/
def sortedRBC (a : ReleasesByChannel) : Prop := ∀ p ∈ a, sortedTable p.2

theorem releaseToAdd_nodup (table : VersionReleases) (ver : String) (release : Release)
    (htab : nodupTable table) (hrel : release.availableUpgrades.Nodup) :
    (releaseToAdd table ver release).availableUpgrades.Nodup := by
  unfold releaseToAdd
  cases hl : lookupA table ver with
  | none => exact hrel
  | some existing => exact mergeUpgrades_nodup release (htab _ (lookupA_mem hl))

theorem aggChannel_sortedRBC (group : String) :
    ∀ (vm : List (String × Release)) (agg a2 : ReleasesByChannel),
      (∀ q ∈ vm, q.2.availableUpgrades.Nodup) → sortedRBC agg →
      aggChannel group vm agg = .ok a2 → sortedRBC a2 := by
  intro vm
  induction vm with
  | nil =>
    intro agg a2 _ hagg h
    simp only [aggChannel] at h
    injection h with h2
    rw [← h2]
    exact hagg
  | cons p rest ih =>
    intro agg a2 hvm hagg h
    obtain ⟨ver, release⟩ := p
    simp only [aggChannel] at h
    split at h
    · cases h
    · rename_i sorted hsort
      have htabS : sortedTable ((lookupA agg group).getD []) := by
        cases hl : lookupA agg group with
        | none => rintro q hq; simp [lookupA] at hq
        | some t0 =>
          show sortedTable ((some t0).getD [])
          exact hagg _ (lookupA_mem hl)
      have hradd : (releaseToAdd ((lookupA agg group).getD []) ver release).availableUpgrades.Nodup :=
        releaseToAdd_nodup _ _ _ (fun q hq => (htabS q hq).1) (hvm (ver, release) (by simp))
      have hs := sortAvailableUpgrades_ok hsort
      have hsortedgood : sorted.availableUpgrades.Nodup ∧
          List.Pairwise (fun a b => verStrLE a b = true) sorted.availableUpgrades := by
        rw [hs.2.2.2.1]
        exact ⟨sortByVer_nodup hradd, sortByVer_pairwise _⟩
      refine ih _ _ (fun q hq => hvm q (by simp [hq])) ?_ h
      rintro ⟨gk, gt⟩ hg
      rcases mem_insertA hg with hmem | ⟨h1, h2⟩
      · exact hagg _ hmem
      · subst h2
        rintro ⟨qk, qr⟩ hq
        rcases mem_insertA hq with hmem2 | ⟨h3, h4⟩
        · exact htabS _ hmem2
        · subst h4
          exact hsortedgood

theorem ensureGroup_sortedRBC {agg : ReleasesByChannel} (group : String)
    (h : sortedRBC agg) : sortedRBC (ensureGroup agg group) := by
  unfold ensureGroup
  cases hl : lookupA agg group with
  | some t => exact h
  | none =>
    rintro ⟨gk, gt⟩ hg
    rcases mem_insertA hg with hmem | ⟨h1, h2⟩
    · exact h _ hmem
    · subst h2
      rintro q hq
      simp at hq

theorem aggregateRBC_sortedRBC :
    ∀ (rbc agg a2 : ReleasesByChannel),
      (∀ p ∈ rbc, ∀ q ∈ p.2, q.2.availableUpgrades.Nodup) → sortedRBC agg →
      aggregateRBC rbc agg = .ok a2 → sortedRBC a2 := by
  intro rbc
  induction rbc with
  | nil =>
    intro agg a2 _ hagg h
    simp only [aggregateRBC] at h
    injection h with h2
    rw [← h2]
    exact hagg
  | cons p rest ih =>
    intro agg a2 hin hagg h
    obtain ⟨channel, vm⟩ := p
    simp only [aggregateRBC] at h
    split at h
    · cases h
    · rename_i agg2 hagg2
      refine ih _ _ (fun q hq => hin q (by simp [hq])) ?_ h
      exact aggChannel_sortedRBC (channelGroup channel) vm _ agg2
        (fun q hq => hin (channel, vm) (by simp) q hq)
        (ensureGroup_sortedRBC _ hagg) hagg2

/-- C4: on a successful `DiscoverReleases` run, the `availableUpgrades`
list of every discovered release is free of duplicates (under any sequence
of unconditional-then-conditional edge applications, which are the only
operations that extend those lists), and after
`AggregateReleasesByChannelGroupAndSortAvailableUpgrades` succeeds on the
result, every aggregated release's `availableUpgrades` list is additionally
sorted ascending in version order (and still duplicate-free). -/
theorem claim_C4_no_duplicate_upgrades_and_sorted (src : GraphSource)
    (startChannel arch : String) (allowed : List String) (res : ReleasesByChannel)
    (hok : DiscoverReleases src startChannel arch allowed = some (.ok res)) :
    (∀ ch t, lookupA res ch = some t → ∀ v r, lookupA t v = some r →
        r.availableUpgrades.Nodup)
    ∧ (∀ a2, AggregateReleasesByChannelGroupAndSortAvailableUpgrades res = .ok a2 →
        ∀ g t, lookupA a2 g = some t → ∀ v r, lookupA t v = some r →
          r.availableUpgrades.Nodup ∧
          List.Pairwise (fun x y => verStrLE x y = true) r.availableUpgrades) := by
  have hnd : nodupRBC res := discoverReleases_ok_nodupRBC hok
  constructor
  · intro ch t hct v r hvr
    exact hnd _ (lookupA_mem hct) _ (lookupA_mem hvr)
  · intro a2 ha g t hgt v r hvr
    have ha' : aggregateRBC res [] = .ok a2 := ha
    have hs : sortedRBC a2 :=
      aggregateRBC_sortedRBC res [] a2 (fun p hp q hq => hnd p hp q hq)
        (by rintro p hp; simp at hp) ha'
    exact hs _ (lookupA_mem hgt) _ (lookupA_mem hvr)

/-- Expected aggregation of the fixture discovery result: one group
`stable` holding all three versions, each upgrade list sorted. -/
def wAgg : ReleasesByChannel :=
  [("stable", [("4.16.1", wRel1), ("4.16.2", wRel2), ("4.17.5", wRel3)])]

/-- Concrete aggregation run over the fixture discovery result. -/
theorem wAgg_run :
    AggregateReleasesByChannelGroupAndSortAvailableUpgrades wRes = .ok wAgg := by
  rfl

/-- C4 witness: the theorem applied to the fixture run and the concrete
aggregation, evaluated at group `stable`, version `4.16.1`. -/
theorem claim_C4_witness :
    wRel1.availableUpgrades.Nodup ∧
    List.Pairwise (fun x y => verStrLE x y = true) wRel1.availableUpgrades := by
  have h := claim_C4_no_duplicate_upgrades_and_sorted wSrc "stable-4.16" "amd64" [] wRes wSrc_run
  exact h.2 wAgg wAgg_run "stable" _ rfl "4.16.1" _ rfl

/-! ### Aggregation errors come exactly from the final sort (claim C8) -/

/-- Every upgrade entry of every release of the table parses. -/
def parseableTable (t : VersionReleases) : Prop :=
  ∀ q ∈ t, ∀ x ∈ q.2.availableUpgrades, (parseVersion x).isSome = true

/-- Every upgrade entry of every stored release parses. -/
def parseableRBC (a : ReleasesByChannel) : Prop := ∀ p ∈ a, parseableTable p.2

theorem sorted_parseable {r sorted : Release} (hsort : r.SortAvailableUpgrades = .ok sorted) :
    ∀ x ∈ sorted.availableUpgrades, (parseVersion x).isSome = true := by
  intro x hx
  have hs := sortAvailableUpgrades_ok hsort
  rw [hs.2.2.2.1] at hx
  exact hs.2.2.2.2 x ((sortByVer_mem _ x).mp hx)

theorem releaseToAdd_bad {table : VersionReleases} {ver : String} {release : Release}
    {u : String} (htab : parseableTable table)
    (hu : u ∈ (releaseToAdd table ver release).availableUpgrades)
    (hbad : parseVersion u = none) : u ∈ release.availableUpgrades := by
  cases hl : lookupA table ver with
  | none => simpa [releaseToAdd, hl] using hu
  | some existing =>
    simp only [releaseToAdd, hl] at hu
    rcases (mergeUpgrades_mem existing release u).mp hu with h | h
    · have := htab _ (lookupA_mem hl) u h
      rw [hbad] at this
      simp at this
    · exact h

theorem releaseToAdd_mem_right (table : VersionReleases) (ver : String) (release : Release)
    {x : String} (hx : x ∈ release.availableUpgrades) :
    x ∈ (releaseToAdd table ver release).availableUpgrades := by
  cases hl : lookupA table ver with
  | none => simpa [releaseToAdd, hl] using hx
  | some existing =>
    simp only [releaseToAdd, hl]
    exact (mergeUpgrades_mem existing release x).mpr (Or.inr hx)

theorem aggStep_parseableRBC {agg : ReleasesByChannel} {group ver : String}
    {sorted : Release} (hagg : parseableRBC agg)
    (hsorted : ∀ x ∈ sorted.availableUpgrades, (parseVersion x).isSome = true) :
    parseableRBC (insertA agg group (insertA ((lookupA agg group).getD []) ver sorted)) := by
  have htab : parseableTable ((lookupA agg group).getD []) := by
    cases hl : lookupA agg group with
    | none => rintro q hq; simp [lookupA] at hq
    | some t0 =>
      show parseableTable ((some t0).getD [])
      exact hagg _ (lookupA_mem hl)
  rintro ⟨gk, gt⟩ hg
  rcases mem_insertA hg with hmem | ⟨h1, h2⟩
  · exact hagg _ hmem
  · subst h2
    rintro ⟨qk, qr⟩ hq
    rcases mem_insertA hq with hmem2 | ⟨h3, h4⟩
    · exact htab _ hmem2
    · subst h4
      exact hsorted

theorem aggChannel_parseableRBC (group : String) :
    ∀ (vm : List (String × Release)) (agg agg2 : ReleasesByChannel),
      parseableRBC agg → aggChannel group vm agg = .ok agg2 → parseableRBC agg2 := by
  intro vm
  induction vm with
  | nil =>
    intro agg agg2 hagg h
    simp only [aggChannel] at h
    injection h with h2
    rw [← h2]
    exact hagg
  | cons p rest ih =>
    intro agg agg2 hagg h
    obtain ⟨ver, release⟩ := p
    simp only [aggChannel] at h
    split at h
    · cases h
    · rename_i sorted hsort
      exact ih _ _ (aggStep_parseableRBC hagg (sorted_parseable hsort)) h

theorem aggChannel_error (group : String) :
    ∀ (vm : List (String × Release)) (agg : ReleasesByChannel) (e : String),
      parseableRBC agg → aggChannel group vm agg = .error e →
      ∃ q ∈ vm, ∃ x ∈ q.2.availableUpgrades, parseVersion x = none := by
  intro vm
  induction vm with
  | nil =>
    intro agg e _ h
    simp only [aggChannel] at h
    cases h
  | cons p rest ih =>
    intro agg e hagg h
    obtain ⟨ver, release⟩ := p
    have htab : parseableTable ((lookupA agg group).getD []) := by
      cases hl : lookupA agg group with
      | none => rintro q hq; simp [lookupA] at hq
      | some t0 =>
        show parseableTable ((some t0).getD [])
        exact hagg _ (lookupA_mem hl)
    simp only [aggChannel] at h
    split at h
    · rename_i e2 hsort
      unfold Release.SortAvailableUpgrades at hsort
      cases hfb : firstBadUpgrade
          (releaseToAdd ((lookupA agg group).getD []) ver release).availableUpgrades with
      | none =>
        rw [hfb] at hsort
        cases hsort
      | some u =>
        obtain ⟨hu, hbad⟩ := firstBadUpgrade_some _ u hfb
        exact ⟨(ver, release), by simp, u, releaseToAdd_bad htab hu hbad, hbad⟩
    · rename_i sorted hsort
      obtain ⟨q, hq, x, hx, hbad⟩ :=
        ih _ e (aggStep_parseableRBC hagg (sorted_parseable hsort)) h
      exact ⟨q, by simp [hq], x, hx, hbad⟩

theorem ensureGroup_parseableRBC {agg : ReleasesByChannel} (group : String)
    (h : parseableRBC agg) : parseableRBC (ensureGroup agg group) := by
  unfold ensureGroup
  cases hl : lookupA agg group with
  | some t => exact h
  | none =>
    rintro ⟨gk, gt⟩ hg
    rcases mem_insertA hg with hmem | ⟨h1, h2⟩
    · exact h _ hmem
    · subst h2
      rintro q hq
      simp at hq

theorem aggregateRBC_error :
    ∀ (rbc agg : ReleasesByChannel) (e : String),
      parseableRBC agg → aggregateRBC rbc agg = .error e →
      ∃ p ∈ rbc, ∃ q ∈ p.2, ∃ x ∈ q.2.availableUpgrades, parseVersion x = none := by
  intro rbc
  induction rbc with
  | nil =>
    intro agg e _ h
    simp only [aggregateRBC] at h
    cases h
  | cons p rest ih =>
    intro agg e hagg h
    obtain ⟨channel, vm⟩ := p
    simp only [aggregateRBC] at h
    split at h
    · rename_i e2 hagge
      obtain ⟨q, hq, x, hx, hbad⟩ := aggChannel_error (channelGroup channel) vm _ e2
        (ensureGroup_parseableRBC _ hagg) hagge
      exact ⟨(channel, vm), by simp, q, hq, x, hx, hbad⟩
    · rename_i agg2 hagg2
      obtain ⟨p2, hp2, q, hq, x, hx, hbad⟩ := ih agg2 e
        (aggChannel_parseableRBC (channelGroup channel) vm _ agg2
          (ensureGroup_parseableRBC _ hagg) hagg2) h
      exact ⟨p2, by simp [hp2], q, hq, x, hx, hbad⟩

theorem aggChannel_error_of (group : String) :
    ∀ (vm : List (String × Release)) (agg : ReleasesByChannel),
      (∃ q ∈ vm, ∃ x ∈ q.2.availableUpgrades, parseVersion x = none) →
      ∃ e, aggChannel group vm agg = .error e := by
  intro vm
  induction vm with
  | nil =>
    rintro agg ⟨q, hq, _⟩
    simp at hq
  | cons p rest ih =>
    rintro agg ⟨q, hq, x, hx, hbad⟩
    obtain ⟨ver, release⟩ := p
    rcases List.mem_cons.mp hq with rfl | hq2
    · obtain ⟨e, he⟩ := sortAvailableUpgrades_error_of
        (releaseToAdd ((lookupA agg group).getD []) ver release) x
        (releaseToAdd_mem_right _ _ _ hx) hbad
      exact ⟨e, by simp only [aggChannel, he]⟩
    · simp only [aggChannel]
      cases hsort : (releaseToAdd ((lookupA agg group).getD []) ver release).SortAvailableUpgrades with
      | error e => exact ⟨e, rfl⟩
      | ok sorted => exact ih _ ⟨q, hq2, x, hx, hbad⟩

theorem aggregateRBC_error_of :
    ∀ (rbc agg : ReleasesByChannel),
      (∃ p ∈ rbc, ∃ q ∈ p.2, ∃ x ∈ q.2.availableUpgrades, parseVersion x = none) →
      ∃ e, aggregateRBC rbc agg = .error e := by
  intro rbc
  induction rbc with
  | nil =>
    rintro agg ⟨p, hp, _⟩
    simp at hp
  | cons p rest ih =>
    rintro agg ⟨p2, hp2, q, hq, x, hx, hbad⟩
    obtain ⟨channel, vm⟩ := p
    rcases List.mem_cons.mp hp2 with rfl | hp3
    · obtain ⟨e, he⟩ := aggChannel_error_of (channelGroup channel) vm
        (ensureGroup agg (channelGroup channel)) ⟨q, hq, x, hx, hbad⟩
      exact ⟨e, by simp only [aggregateRBC, he]⟩
    · simp only [aggregateRBC]
      cases hstep : aggChannel (channelGroup channel) vm
          (ensureGroup agg (channelGroup channel)) with
      | error e => exact ⟨e, rfl⟩
      | ok agg2 => exact ih agg2 ⟨p2, hp3, q, hq, x, hx, hbad⟩

/-- C8: the aggregation entry point returns an error iff some
`availableUpgrades` entry of some input release fails to parse as a version
(the sort is where those strings are revalidated); on an error it returns
no aggregated result; and discovery itself never re-parses conditional-edge
target strings: applying a conditional edge records its target in
`availableUpgrades` whether or not the target parses. -/
theorem claim_C8_aggregation_error_iff_bad_upgrade (rbc : ReleasesByChannel) :
    ((∃ e, AggregateReleasesByChannelGroupAndSortAvailableUpgrades rbc = .error e) ↔
      ∃ p ∈ rbc, ∃ q ∈ p.2, ∃ x ∈ q.2.availableUpgrades, parseVersion x = none)
    ∧ (∀ e a2, AggregateReleasesByChannelGroupAndSortAvailableUpgrades rbc = .error e →
        AggregateReleasesByChannelGroupAndSortAvailableUpgrades rbc ≠ .ok a2)
    ∧ (∀ (t : VersionReleases) (fromV toV : String) (r : Release),
        lookupA t fromV = some r → r.availableUpgrades.contains toV = false →
        ∃ r2, lookupA (condEdgeApply [⟨fromV, toV⟩] t) fromV = some r2 ∧
          toV ∈ r2.availableUpgrades) := by
  refine ⟨⟨?_, ?_⟩, ?_, ?_⟩
  · rintro ⟨e, he⟩
    exact aggregateRBC_error rbc [] e (by rintro p hp; simp at hp) he
  · intro hbad
    exact aggregateRBC_error_of rbc [] hbad
  · intro e a2 he hcontra
    rw [he] at hcontra
    cases hcontra
  · intro t fromV toV r hl hc
    simp only [condEdgeApply, hl]
    rw [if_neg (by rw [hc]; simp)]
    exact ⟨_, lookupA_insertA_self t fromV _, by simp⟩

/-- Fixture release carrying an unparseable upgrade target (as produced by
an accepted conditional edge whose target is not a version). -/
def wBadUpsRel : Release :=
  { version := "4.16.1", arch := "amd64", payload := "p",
    availableUpgrades := ["not-a-version"] }

/-- Fixture discovery result with an unparseable upgrade entry. -/
def wBadUps : ReleasesByChannel := [("stable-4.16", [("4.16.1", wBadUpsRel)])]

/-- C8 witness: aggregating the fixture with the unparseable upgrade entry
errors, by the backward direction of the theorem at a concrete input. -/
theorem claim_C8_witness :
    ∃ e, AggregateReleasesByChannelGroupAndSortAvailableUpgrades wBadUps = .error e := by
  refine (claim_C8_aggregation_error_iff_bad_upgrade wBadUps).1.mpr ?_
  exact ⟨("stable-4.16", [("4.16.1", wBadUpsRel)]), by simp [wBadUps],
    ("4.16.1", wBadUpsRel), by simp, "not-a-version", by simp [wBadUpsRel], rfl⟩

/-! ### Aggregation and channel processing order (claim C7) -/

/-- Two-level lookup into an aggregate: group, then version key. -/
def lookup2 (a : ReleasesByChannel) (g v : String) : Option Release :=
  match lookupA a g with
  | none => none
  | some t => lookupA t v

/-- The upgrade list of an optional release (empty when absent). -/
def upsOf : Option Release → List String
  | none => []
  | some r => r.availableUpgrades

/-- Agreement on the scalar fields kept by first-seen-wins. -/
abbrev sameScalars (r s : Release) : Prop :=
  r.version = s.version ∧ r.arch = s.arch ∧ r.payload = s.payload

theorem sameScalars_refl (r : Release) : sameScalars r r := ⟨rfl, rfl, rfl⟩

theorem sameScalars_symm {r s : Release} (h : sameScalars r s) : sameScalars s r :=
  ⟨h.1.symm, h.2.1.symm, h.2.2.symm⟩

theorem sameScalars_trans {r s t : Release} (h1 : sameScalars r s) (h2 : sameScalars s t) :
    sameScalars r t :=
  ⟨h1.1.trans h2.1, h1.2.1.trans h2.2.1, h1.2.2.trans h2.2.2⟩

/-- Some input channel of group `g` carries version key `v`. -/
abbrev hasContrib (rbc : ReleasesByChannel) (g v : String) : Prop :=
  ∃ p ∈ rbc, channelGroup p.1 = g ∧ ∃ q ∈ p.2, q.1 = v

/-- Some input channel of group `g` contributes upgrade `x` at key `v`. -/
abbrev memContrib (rbc : ReleasesByChannel) (g v x : String) : Prop :=
  ∃ p ∈ rbc, channelGroup p.1 = g ∧ ∃ q ∈ p.2, q.1 = v ∧ x ∈ q.2.availableUpgrades

/-- Some input entry at `(g, v)` carries these scalar fields. -/
abbrev scalarContrib (rbc : ReleasesByChannel) (g v : String) (r : Release) : Prop :=
  ∃ p ∈ rbc, channelGroup p.1 = g ∧ ∃ q ∈ p.2, q.1 = v ∧ sameScalars r q.2

theorem release_eq {r s : Release} (h1 : r.version = s.version) (h2 : r.arch = s.arch)
    (h3 : r.payload = s.payload) (h4 : r.availableUpgrades = s.availableUpgrades) : r = s := by
  cases r
  cases s
  cases h1
  cases h2
  cases h3
  cases h4
  rfl

theorem lookup2_mem {a : ReleasesByChannel} {g v : String} {r : Release}
    (h : lookup2 a g v = some r) : ∃ t, lookupA a g = some t ∧ lookupA t v = some r := by
  unfold lookup2 at h
  cases hl : lookupA a g with
  | none => rw [hl] at h; cases h
  | some t => rw [hl] at h; exact ⟨t, rfl, h⟩

theorem ensureGroup_lookup2 (agg : ReleasesByChannel) (group g v : String) :
    lookup2 (ensureGroup agg group) g v = lookup2 agg g v := by
  unfold ensureGroup
  cases hl : lookupA agg group with
  | some t => rfl
  | none =>
    by_cases hg : g = group
    · subst hg
      unfold lookup2
      rw [lookupA_insertA_self, hl]
      rfl
    · unfold lookup2
      rw [lookupA_insertA_ne agg group g [] hg]

/-- Two sorted duplicate-free lists with the same members are equal, as
long as comparison ties do not occur between distinct members. -/
theorem sorted_nodup_eq : ∀ (l1 l2 : List String),
    List.Pairwise (fun a b => verStrLE a b = true) l1 →
    List.Pairwise (fun a b => verStrLE a b = true) l2 →
    l1.Nodup → l2.Nodup → (∀ x, x ∈ l1 ↔ x ∈ l2) →
    (∀ x ∈ l1, ∀ y ∈ l1, verStrLE x y = true → verStrLE y x = true → x = y) →
    l1 = l2 := by
  intro l1
  induction l1 with
  | nil =>
    intro l2 _ _ _ _ hmem _
    cases l2 with
    | nil => rfl
    | cons c cs => exact absurd ((hmem c).mpr (by simp)) (by simp)
  | cons a l1x ih =>
    intro l2 hp1 hp2 hn1 hn2 hmem hanti
    cases l2 with
    | nil => exact absurd ((hmem a).mp (by simp)) (by simp)
    | cons c cs =>
      have hac : a = c := by
        have hcin : c ∈ a :: l1x := (hmem c).mpr (by simp)
        have hain : a ∈ c :: cs := (hmem a).mp (by simp)
        rcases List.mem_cons.mp hcin with h | h
        · exact h.symm
        · have h1 : verStrLE a c = true := (List.pairwise_cons.mp hp1).1 c h
          rcases List.mem_cons.mp hain with h2 | h2
          · exact h2
          · have h3 : verStrLE c a = true := (List.pairwise_cons.mp hp2).1 a h2
            exact hanti a (by simp) c (by simp [h]) h1 h3
      subst hac
      have htl : l1x = cs := by
        refine ih cs (List.pairwise_cons.mp hp1).2 (List.pairwise_cons.mp hp2).2
          (List.nodup_cons.mp hn1).2 (List.nodup_cons.mp hn2).2 ?_ ?_
        · intro x
          constructor
          · intro hx
            have hx2 : x ∈ a :: cs := (hmem x).mp (by simp [hx])
            rcases List.mem_cons.mp hx2 with rfl | h
            · exact absurd hx (List.nodup_cons.mp hn1).1
            · exact h
          · intro hx
            have hx2 : x ∈ a :: l1x := (hmem x).mpr (by simp [hx])
            rcases List.mem_cons.mp hx2 with rfl | h
            · exact absurd hx (List.nodup_cons.mp hn2).1
            · exact h
        · intro x hx y hy
          exact hanti x (by simp [hx]) y (by simp [hy])
      rw [htl]

/-- Counterexample fixtures: two channels of the same group carrying the
same version key with different payloads. -/
def wCexRelA : Release := { version := "4.16.1", arch := "amd64", payload := "pA" }

/-- The rival release: same version key, different payload. -/
def wCexRelB : Release := { version := "4.16.1", arch := "amd64", payload := "pB" }

/-- First processing order. -/
def wCex1 : ReleasesByChannel :=
  [("stable-4.16", [("4.16.1", wCexRelA)]), ("stable-4.17", [("4.16.1", wCexRelB)])]

/-- Second processing order: the same channels, swapped. -/
def wCex2 : ReleasesByChannel :=
  [("stable-4.17", [("4.16.1", wCexRelB)]), ("stable-4.16", [("4.16.1", wCexRelA)])]

/-- C7 counterexample: aggregation is not invariant under channel
processing order as claimed: first-seen-wins keeps the payload of
whichever channel is processed first, so swapping two same-group channels
that carry the same version with different payloads changes the result. -/
theorem claim_C7_counterexample :
    List.Perm wCex1 wCex2 ∧
    AggregateReleasesByChannelGroupAndSortAvailableUpgrades wCex1 ≠
      AggregateReleasesByChannelGroupAndSortAvailableUpgrades wCex2 := by
  constructor
  · exact List.Perm.swap _ _ _
  · intro h
    have h1 : AggregateReleasesByChannelGroupAndSortAvailableUpgrades wCex1 =
        .ok [("stable", [("4.16.1", wCexRelA)])] := rfl
    have h2 : AggregateReleasesByChannelGroupAndSortAvailableUpgrades wCex2 =
        .ok [("stable", [("4.16.1", wCexRelB)])] := rfl
    rw [h1, h2] at h
    injection h with h3
    injection h3 with h4 h5
    injection h4 with h6 h7
    injection h7 with h8 h9
    injection h8 with h10 h11
    exact absurd (congrArg Release.payload h11) (by decide)

/-- How one channel's version map changes the aggregate, observed through
`lookup2`: other groups are untouched; at the channel's group a version key
is present iff it was present before or the map carries it, its upgrade
list collects the prior entries plus the map's contributions, and its
scalar fields come from the prior entry or from some map entry. -/
theorem aggChannel_lookup2 (group : String) :
    ∀ (vm : List (String × Release)) (agg a : ReleasesByChannel),
      aggChannel group vm agg = .ok a → ∀ g v,
      (g ≠ group → lookup2 a g v = lookup2 agg g v)
      ∧ ((lookup2 a group v).isSome = true ↔
          (lookup2 agg group v).isSome = true ∨ ∃ q ∈ vm, q.1 = v)
      ∧ (∀ x, x ∈ upsOf (lookup2 a group v) ↔
          x ∈ upsOf (lookup2 agg group v) ∨ ∃ q ∈ vm, q.1 = v ∧ x ∈ q.2.availableUpgrades)
      ∧ (∀ r, lookup2 a group v = some r →
          (∃ r0, lookup2 agg group v = some r0 ∧ sameScalars r r0) ∨
            ∃ q ∈ vm, q.1 = v ∧ sameScalars r q.2) := by
  intro vm
  induction vm with
  | nil =>
    intro agg a h g v
    simp only [aggChannel] at h
    injection h with h2
    subst h2
    exact ⟨fun _ => rfl, by simp, fun x => by simp,
      fun r hr => Or.inl ⟨r, hr, sameScalars_refl r⟩⟩
  | cons p rest ih =>
    intro agg a h g v
    obtain ⟨ver, release⟩ := p
    simp only [aggChannel] at h
    split at h
    · cases h
    · rename_i sorted hsort
      have hih := ih _ _ h g v
      have hs := sortAvailableUpgrades_ok hsort
      have hS1 : ∀ g2 v2, g2 ≠ group →
          lookup2 (insertA agg group
            (insertA ((lookupA agg group).getD []) ver sorted)) g2 v2 = lookup2 agg g2 v2 := by
        intro g2 v2 hg2
        unfold lookup2
        rw [lookupA_insertA_ne agg group g2 _ hg2]
      have hS2 : lookup2 (insertA agg group
          (insertA ((lookupA agg group).getD []) ver sorted)) group ver = some sorted := by
        unfold lookup2
        rw [lookupA_insertA_self]
        exact lookupA_insertA_self _ ver sorted
      have hS3 : ∀ v2, v2 ≠ ver →
          lookup2 (insertA agg group
            (insertA ((lookupA agg group).getD []) ver sorted)) group v2 =
            lookup2 agg group v2 := by
        intro v2 hv2
        unfold lookup2
        rw [lookupA_insertA_self]
        cases hl : lookupA agg group with
        | none =>
          show lookupA (insertA [] ver sorted) v2 = none
          rw [lookupA_insertA_ne [] ver v2 sorted hv2]
          rfl
        | some t0 =>
          show lookupA (insertA t0 ver sorted) v2 = lookupA t0 v2
          exact lookupA_insertA_ne t0 ver v2 sorted hv2
      have hMem : ∀ x, x ∈ sorted.availableUpgrades ↔
          x ∈ upsOf (lookup2 agg group ver) ∨ x ∈ release.availableUpgrades := by
        intro x
        rw [hs.2.2.2.1, sortByVer_mem]
        unfold lookup2
        cases hl : lookupA agg group with
        | none =>
          show x ∈ (releaseToAdd [] ver release).availableUpgrades ↔
            x ∈ upsOf none ∨ x ∈ release.availableUpgrades
          simp [releaseToAdd, lookupA, upsOf]
        | some t0 =>
          show x ∈ (releaseToAdd t0 ver release).availableUpgrades ↔
            x ∈ upsOf (lookupA t0 ver) ∨ x ∈ release.availableUpgrades
          cases hl2 : lookupA t0 ver with
          | none => simp [releaseToAdd, hl2, upsOf]
          | some ex =>
            simp only [releaseToAdd, hl2, upsOf]
            exact mergeUpgrades_mem ex release x
      have hScal : (∃ r0, lookup2 agg group ver = some r0 ∧ sameScalars sorted r0) ∨
          sameScalars sorted release := by
        have hsc : sameScalars sorted
            (releaseToAdd ((lookupA agg group).getD []) ver release) :=
          ⟨hs.1, hs.2.1, hs.2.2.1⟩
        unfold lookup2
        cases hl : lookupA agg group with
        | none =>
          rw [hl] at hsc
          exact Or.inr hsc
        | some t0 =>
          rw [hl] at hsc
          cases hl2 : lookupA t0 ver with
          | none =>
            have hred : releaseToAdd ((some t0).getD []) ver release = release := by
              simp [releaseToAdd, hl2]
            rw [hred] at hsc
            exact Or.inr hsc
          | some ex =>
            have hred : releaseToAdd ((some t0).getD []) ver release =
                mergeUpgrades ex release := by
              simp [releaseToAdd, hl2]
            rw [hred] at hsc
            exact Or.inl ⟨ex, hl2, sameScalars_trans hsc ⟨rfl, rfl, rfl⟩⟩
      have hSsome : (lookup2 (insertA agg group
          (insertA ((lookupA agg group).getD []) ver sorted)) group ver).isSome = true := by
        rw [hS2]
        rfl
      refine ⟨?_, ?_, ?_, ?_⟩
      · intro hg
        exact (hih.1 hg).trans (hS1 g v hg)
      · by_cases hv : v = ver
        · subst hv
          have hsome : (lookup2 a group v).isSome = true := by
            rw [hih.2.1]
            exact Or.inl hSsome
          exact ⟨fun _ => Or.inr ⟨(v, release), by simp, rfl⟩, fun _ => hsome⟩
        · rw [hih.2.1, hS3 v hv]
          constructor
          · rintro (h1 | ⟨q, hq, hqv⟩)
            · exact Or.inl h1
            · exact Or.inr ⟨q, by simp [hq], hqv⟩
          · rintro (h1 | ⟨q, hq, hqv⟩)
            · exact Or.inl h1
            · rcases List.mem_cons.mp hq with rfl | hq2
              · exact absurd hqv.symm hv
              · exact Or.inr ⟨q, hq2, hqv⟩
      · intro x
        by_cases hv : v = ver
        · subst hv
          rw [hih.2.2.1 x, hS2]
          simp only [upsOf]
          rw [hMem x]
          constructor
          · rintro ((h1 | h1) | ⟨q, hq, hqv, hqx⟩)
            · exact Or.inl h1
            · exact Or.inr ⟨(v, release), by simp, rfl, h1⟩
            · exact Or.inr ⟨q, by simp [hq], hqv, hqx⟩
          · rintro (h1 | ⟨q, hq, hqv, hqx⟩)
            · exact Or.inl (Or.inl h1)
            · rcases List.mem_cons.mp hq with rfl | hq2
              · exact Or.inl (Or.inr hqx)
              · exact Or.inr ⟨q, hq2, hqv, hqx⟩
        · rw [hih.2.2.1 x, hS3 v hv]
          constructor
          · rintro (h1 | ⟨q, hq, hqv, hqx⟩)
            · exact Or.inl h1
            · exact Or.inr ⟨q, by simp [hq], hqv, hqx⟩
          · rintro (h1 | ⟨q, hq, hqv, hqx⟩)
            · exact Or.inl h1
            · rcases List.mem_cons.mp hq with rfl | hq2
              · exact absurd hqv.symm hv
              · exact Or.inr ⟨q, hq2, hqv, hqx⟩
      · intro r hr
        by_cases hv : v = ver
        · subst hv
          rcases hih.2.2.2 r hr with ⟨r0, hr0, hsc0⟩ | ⟨q, hq, hqv, hqs⟩
          · rw [hS2] at hr0
            injection hr0 with hr0e
            subst hr0e
            rcases hScal with ⟨r1, hr1, hsc1⟩ | hsc1
            · exact Or.inl ⟨r1, hr1, sameScalars_trans hsc0 hsc1⟩
            · exact Or.inr ⟨(v, release), by simp, rfl, sameScalars_trans hsc0 hsc1⟩
          · exact Or.inr ⟨q, by simp [hq], hqv, hqs⟩
        · rcases hih.2.2.2 r hr with ⟨r0, hr0, hsc0⟩ | ⟨q, hq, hqv, hqs⟩
          · rw [hS3 v hv] at hr0
            exact Or.inl ⟨r0, hr0, hsc0⟩
          · exact Or.inr ⟨q, by simp [hq], hqv, hqs⟩

/-- The whole aggregation fold, observed through `lookup2`: a `(group,
version)` slot is filled iff some input channel contributes to it, its
upgrade list collects exactly the input contributions, and its scalar
fields come from some input entry for that slot. -/
theorem aggregateRBC_lookup2 :
    ∀ (rbc agg a : ReleasesByChannel),
      aggregateRBC rbc agg = .ok a → ∀ g v,
      ((lookup2 a g v).isSome = true ↔
        (lookup2 agg g v).isSome = true ∨ hasContrib rbc g v)
      ∧ (∀ x, x ∈ upsOf (lookup2 a g v) ↔
          x ∈ upsOf (lookup2 agg g v) ∨ memContrib rbc g v x)
      ∧ (∀ r, lookup2 a g v = some r →
          (∃ r0, lookup2 agg g v = some r0 ∧ sameScalars r r0) ∨ scalarContrib rbc g v r) := by
  intro rbc
  induction rbc with
  | nil =>
    intro agg a h g v
    simp only [aggregateRBC] at h
    injection h with h2
    subst h2
    exact ⟨by simp, fun x => by simp, fun r hr => Or.inl ⟨r, hr, sameScalars_refl r⟩⟩
  | cons p rest ih =>
    intro agg a h g v
    obtain ⟨channel, vm⟩ := p
    simp only [aggregateRBC] at h
    split at h
    · cases h
    · rename_i agg2 hagg2
      have hih := ih agg2 a h g v
      have hch := aggChannel_lookup2 (channelGroup channel) vm _ agg2 hagg2
      have hens : ∀ g2 v2,
          lookup2 (ensureGroup agg (channelGroup channel)) g2 v2 = lookup2 agg g2 v2 :=
        fun g2 v2 => ensureGroup_lookup2 agg (channelGroup channel) g2 v2
      by_cases hg : g = channelGroup channel
      · subst hg
        refine ⟨?_, ?_, ?_⟩
        · rw [hih.1, (hch (channelGroup channel) v).2.1, hens (channelGroup channel) v]
          constructor
          · rintro ((h1 | ⟨q, hq, hqv⟩) | ⟨p2, hp2, hgp2, hq2⟩)
            · exact Or.inl h1
            · exact Or.inr ⟨(channel, vm), by simp, rfl, q, hq, hqv⟩
            · exact Or.inr ⟨p2, by simp [hp2], hgp2, hq2⟩
          · rintro (h1 | ⟨p2, hp2, hgp2, q, hq, hqv⟩)
            · exact Or.inl (Or.inl h1)
            · rcases List.mem_cons.mp hp2 with rfl | hp3
              · exact Or.inl (Or.inr ⟨q, hq, hqv⟩)
              · exact Or.inr ⟨p2, hp3, hgp2, q, hq, hqv⟩
        · intro x
          rw [hih.2.1 x, (hch (channelGroup channel) v).2.2.1 x,
            hens (channelGroup channel) v]
          constructor
          · rintro ((h1 | ⟨q, hq, hqv, hqx⟩) | ⟨p2, hp2, hgp2, hq2⟩)
            · exact Or.inl h1
            · exact Or.inr ⟨(channel, vm), by simp, rfl, q, hq, hqv, hqx⟩
            · exact Or.inr ⟨p2, by simp [hp2], hgp2, hq2⟩
          · rintro (h1 | ⟨p2, hp2, hgp2, q, hq, hqv, hqx⟩)
            · exact Or.inl (Or.inl h1)
            · rcases List.mem_cons.mp hp2 with rfl | hp3
              · exact Or.inl (Or.inr ⟨q, hq, hqv, hqx⟩)
              · exact Or.inr ⟨p2, hp3, hgp2, q, hq, hqv, hqx⟩
        · intro r hr
          rcases hih.2.2 r hr with ⟨r0, hr0, hsc0⟩ | ⟨p2, hp2, hgp2, hq2⟩
          · rcases (hch (channelGroup channel) v).2.2.2 r0 hr0 with
              ⟨r1, hr1, hsc1⟩ | ⟨q, hq, hqv, hqs⟩
            · rw [hens (channelGroup channel) v] at hr1
              exact Or.inl ⟨r1, hr1, sameScalars_trans hsc0 hsc1⟩
            · exact Or.inr ⟨(channel, vm), by simp, rfl, q, hq, hqv,
                sameScalars_trans hsc0 hqs⟩
          · exact Or.inr ⟨p2, by simp [hp2], hgp2, hq2⟩
      · have hgnd2 : lookup2 agg2 g v = lookup2 agg g v :=
          ((hch g v).1 hg).trans (hens g v)
        refine ⟨?_, ?_, ?_⟩
        · rw [hih.1, hgnd2]
          constructor
          · rintro (h1 | ⟨p2, hp2, hgp2, hq2⟩)
            · exact Or.inl h1
            · exact Or.inr ⟨p2, by simp [hp2], hgp2, hq2⟩
          · rintro (h1 | ⟨p2, hp2, hgp2, hq2⟩)
            · exact Or.inl h1
            · rcases List.mem_cons.mp hp2 with rfl | hp3
              · exact absurd hgp2.symm hg
              · exact Or.inr ⟨p2, hp3, hgp2, hq2⟩
        · intro x
          rw [hih.2.1 x, hgnd2]
          constructor
          · rintro (h1 | ⟨p2, hp2, hgp2, hq2⟩)
            · exact Or.inl h1
            · exact Or.inr ⟨p2, by simp [hp2], hgp2, hq2⟩
          · rintro (h1 | ⟨p2, hp2, hgp2, hq2⟩)
            · exact Or.inl h1
            · rcases List.mem_cons.mp hp2 with rfl | hp3
              · exact absurd hgp2.symm hg
              · exact Or.inr ⟨p2, hp3, hgp2, hq2⟩
        · intro r hr
          rcases hih.2.2 r hr with ⟨r0, hr0, hsc0⟩ | ⟨p2, hp2, hgp2, hq2⟩
          · rw [hgnd2] at hr0
            exact Or.inl ⟨r0, hr0, hsc0⟩
          · exact Or.inr ⟨p2, by simp [hp2], hgp2, hq2⟩

/-- C7: aggregation is not literally invariant under the channel
processing order (see the counterexample: first-seen-wins keeps the
first-processed channel's scalar fields).  It is invariant in the
following sense: for any permutation of the channels, aggregation errors
for one order iff it errors for the other, and when both succeed every
`(group, version)` lookup agrees - provided all input entries under the
same group and version key agree on the scalar fields, every input
upgrade list is duplicate-free, and the version comparator has no ties
between distinct input upgrade strings. -/
theorem claim_C7_aggregation_order_invariance (rbc1 rbc2 : ReleasesByChannel)
    (hperm : List.Perm rbc1 rbc2)
    (hnodup : ∀ p ∈ rbc1, ∀ q ∈ p.2, q.2.availableUpgrades.Nodup)
    (hscalar : ∀ p ∈ rbc1, ∀ p2 ∈ rbc1, channelGroup p.1 = channelGroup p2.1 →
      ∀ q ∈ p.2, ∀ q2 ∈ p2.2, q.1 = q2.1 → sameScalars q.2 q2.2)
    (hanti : ∀ p ∈ rbc1, ∀ q ∈ p.2, ∀ x ∈ q.2.availableUpgrades,
      ∀ p2 ∈ rbc1, ∀ q2 ∈ p2.2, ∀ y ∈ q2.2.availableUpgrades,
        verStrLE x y = true → verStrLE y x = true → x = y) :
    ((∃ e, AggregateReleasesByChannelGroupAndSortAvailableUpgrades rbc1 = .error e) ↔
      (∃ e, AggregateReleasesByChannelGroupAndSortAvailableUpgrades rbc2 = .error e))
    ∧ ∀ a1 a2, AggregateReleasesByChannelGroupAndSortAvailableUpgrades rbc1 = .ok a1 →
        AggregateReleasesByChannelGroupAndSortAvailableUpgrades rbc2 = .ok a2 →
        ∀ g v, lookup2 a1 g v = lookup2 a2 g v := by
  constructor
  · constructor
    · rintro ⟨e, he⟩
      obtain ⟨p, hp, q, hq, x, hx, hbad⟩ :=
        aggregateRBC_error rbc1 [] e (by rintro p hp; simp at hp) he
      exact aggregateRBC_error_of rbc2 [] ⟨p, hperm.mem_iff.mp hp, q, hq, x, hx, hbad⟩
    · rintro ⟨e, he⟩
      obtain ⟨p, hp, q, hq, x, hx, hbad⟩ :=
        aggregateRBC_error rbc2 [] e (by rintro p hp; simp at hp) he
      exact aggregateRBC_error_of rbc1 [] ⟨p, hperm.mem_iff.mpr hp, q, hq, x, hx, hbad⟩
  · intro a1 a2 ha1 ha2 g v
    have h1 := aggregateRBC_lookup2 rbc1 [] a1 ha1 g v
    have h2 := aggregateRBC_lookup2 rbc2 [] a2 ha2 g v
    have e1 : (lookup2 a1 g v).isSome = true ↔ hasContrib rbc1 g v := by
      rw [h1.1]
      simp [lookup2, lookupA]
    have e2 : (lookup2 a2 g v).isSome = true ↔ hasContrib rbc2 g v := by
      rw [h2.1]
      simp [lookup2, lookupA]
    have m1 : ∀ x, x ∈ upsOf (lookup2 a1 g v) ↔ memContrib rbc1 g v x := by
      intro x
      rw [h1.2.1 x]
      simp [lookup2, lookupA, upsOf]
    have m2 : ∀ x, x ∈ upsOf (lookup2 a2 g v) ↔ memContrib rbc2 g v x := by
      intro x
      rw [h2.2.1 x]
      simp [lookup2, lookupA, upsOf]
    have s1 : ∀ r, lookup2 a1 g v = some r → scalarContrib rbc1 g v r := by
      intro r hr
      rcases h1.2.2 r hr with ⟨r0, hr0, _⟩ | h
      · simp [lookup2, lookupA] at hr0
      · exact h
    have s2 : ∀ r, lookup2 a2 g v = some r → scalarContrib rbc2 g v r := by
      intro r hr
      rcases h2.2.2 r hr with ⟨r0, hr0, _⟩ | h
      · simp [lookup2, lookupA] at hr0
      · exact h
    have hhas : hasContrib rbc1 g v ↔ hasContrib rbc2 g v :=
      ⟨fun ⟨p, hp, hgp, hq⟩ => ⟨p, hperm.mem_iff.mp hp, hgp, hq⟩,
       fun ⟨p, hp, hgp, hq⟩ => ⟨p, hperm.mem_iff.mpr hp, hgp, hq⟩⟩
    have hmemC : ∀ x, memContrib rbc1 g v x ↔ memContrib rbc2 g v x :=
      fun x => ⟨fun ⟨p, hp, hgp, hq⟩ => ⟨p, hperm.mem_iff.mp hp, hgp, hq⟩,
        fun ⟨p, hp, hgp, hq⟩ => ⟨p, hperm.mem_iff.mpr hp, hgp, hq⟩⟩
    cases hl1 : lookup2 a1 g v with
    | none =>
      cases hl2 : lookup2 a2 g v with
      | none => rfl
      | some r2 =>
        have hs2 : (lookup2 a2 g v).isSome = true := by rw [hl2]; rfl
        have hs1 : (lookup2 a1 g v).isSome = true := e1.mpr (hhas.mpr (e2.mp hs2))
        rw [hl1] at hs1
        simp at hs1
    | some r1 =>
      cases hl2 : lookup2 a2 g v with
      | none =>
        have hs1 : (lookup2 a1 g v).isSome = true := by rw [hl1]; rfl
        have hs2 : (lookup2 a2 g v).isSome = true := e2.mpr (hhas.mp (e1.mp hs1))
        rw [hl2] at hs2
        simp at hs2
      | some r2 =>
        obtain ⟨p, hp, hgp, q, hq, hqv, hqs⟩ := s1 r1 hl1
        obtain ⟨p2, hp2, hgp2, q2, hq2, hqv2, hqs2⟩ := s2 r2 hl2
        have hp2x : p2 ∈ rbc1 := hperm.mem_iff.mpr hp2
        have hsc : sameScalars q.2 q2.2 :=
          hscalar p hp p2 hp2x (hgp.trans hgp2.symm) q hq q2 hq2 (hqv.trans hqv2.symm)
        have hscal12 : sameScalars r1 r2 :=
          sameScalars_trans hqs (sameScalars_trans hsc (sameScalars_symm hqs2))
        have mm1 : ∀ x, x ∈ r1.availableUpgrades ↔ memContrib rbc1 g v x := by
          intro x
          have hx := m1 x
          rw [hl1] at hx
          simpa [upsOf] using hx
        have mm2 : ∀ x, x ∈ r2.availableUpgrades ↔ memContrib rbc2 g v x := by
          intro x
          have hx := m2 x
          rw [hl2] at hx
          simpa [upsOf] using hx
        have hmem12 : ∀ x, x ∈ r1.availableUpgrades ↔ x ∈ r2.availableUpgrades :=
          fun x => (mm1 x).trans ((hmemC x).trans (mm2 x).symm)
        have hsrbc1 : sortedRBC a1 :=
          aggregateRBC_sortedRBC rbc1 [] a1 hnodup (by rintro p3 hp3; simp at hp3) ha1
        have hsrbc2 : sortedRBC a2 :=
          aggregateRBC_sortedRBC rbc2 [] a2
            (fun p3 hp3 q3 hq3 => hnodup p3 (hperm.mem_iff.mpr hp3) q3 hq3)
            (by rintro p3 hp3; simp at hp3) ha2
        obtain ⟨t1, ht1g, ht1v⟩ := lookup2_mem hl1
        obtain ⟨t2, ht2g, ht2v⟩ := lookup2_mem hl2
        have hr1st := hsrbc1 _ (lookupA_mem ht1g) _ (lookupA_mem ht1v)
        have hr2st := hsrbc2 _ (lookupA_mem ht2g) _ (lookupA_mem ht2v)
        have hanti1 : ∀ x ∈ r1.availableUpgrades, ∀ y ∈ r1.availableUpgrades,
            verStrLE x y = true → verStrLE y x = true → x = y := by
          intro x hx y hy hxy hyx
          obtain ⟨px, hpx, _, qx, hqx, _, hxin⟩ := (mm1 x).mp hx
          obtain ⟨py, hpy, _, qy, hqy, _, hyin⟩ := (mm1 y).mp hy
          exact hanti px hpx qx hqx x hxin py hpy qy hqy y hyin hxy hyx
        have hups : r1.availableUpgrades = r2.availableUpgrades :=
          sorted_nodup_eq _ _ hr1st.2 hr2st.2 hr1st.1 hr2st.1 hmem12 hanti1
        exact congrArg some (release_eq hscal12.1 hscal12.2.1 hscal12.2.2 hups)

/-- Witness release `4.16.1` with one (parseable) upgrade target. -/
def wPermRelA : Release :=
  { version := "4.16.1", arch := "amd64", payload := "pA",
    availableUpgrades := ["4.16.2"] }

/-- Witness release `4.16.2`. -/
def wPermRelB : Release := { version := "4.16.2", arch := "amd64", payload := "pB" }

/-- Two same-group channels with distinct version keys, first order. -/
def wPerm1 : ReleasesByChannel :=
  [("stable-4.16", [("4.16.1", wPermRelA)]), ("stable-4.17", [("4.16.2", wPermRelB)])]

/-- The same channels, swapped. -/
def wPerm2 : ReleasesByChannel :=
  [("stable-4.17", [("4.16.2", wPermRelB)]), ("stable-4.16", [("4.16.1", wPermRelA)])]

/-- Aggregate of the first order. -/
def wPermA1 : ReleasesByChannel :=
  [("stable", [("4.16.1", wPermRelA), ("4.16.2", wPermRelB)])]

/-- Aggregate of the second order (different entry order, same lookups). -/
def wPermA2 : ReleasesByChannel :=
  [("stable", [("4.16.2", wPermRelB), ("4.16.1", wPermRelA)])]

/-- First order, evaluated. -/
theorem wPerm_run1 :
    AggregateReleasesByChannelGroupAndSortAvailableUpgrades wPerm1 = .ok wPermA1 := by
  rfl

/-- Second order, evaluated. -/
theorem wPerm_run2 :
    AggregateReleasesByChannelGroupAndSortAvailableUpgrades wPerm2 = .ok wPermA2 := by
  rfl

/-- C7 witness: the amended theorem applied to a concrete swapped pair of
channels, with every hypothesis discharged by evaluation. -/
theorem claim_C7_witness :
    lookup2 wPermA1 "stable" "4.16.1" = lookup2 wPermA2 "stable" "4.16.1" := by
  have h := claim_C7_aggregation_order_invariance wPerm1 wPerm2
    (List.Perm.swap _ _ _) (by decide) (by decide) (by decide)
  exact h.2 wPermA1 wPermA2 wPerm_run1 wPerm_run2 "stable" "4.16.1"

end Cincinnati
